import Mathlib

/-!
# Verification of the virtual-wire core (`hw/core/wire.c`)

A shallow embedding of the wire / wire-driver simulation library:
tri-state drivers attach to wires, the strongest driver wins, equal
strongest drivers that disagree put the wire into conflict, and a
change-detection predicate decides whether listeners are notified.

C bit-fields of width 3 (`strength : 3`) are modelled by `% 8` at every
store; C `bool` conversion of an `int` is modelled by `≠ 0`; C `NULL`
pointers are modelled by `Option`, and an operation that would
dereference a `NULL` pointer returns `none`.
-/

namespace WireCore
/-- `value_mode` bit of `struct WireState` / `struct WireDriverState`:
`VALUE_MODE_D = 0` (digital) or `VALUE_MODE_A = 1` (analogue). -/
inductive Mode where
  | D : Mode
  | A : Mode
deriving DecidableEq, Repr

/-- The drive triple carried by a driver or a drive descriptor:
a strength (3-bit, `0 = STRENGTH_HI_Z`), a value mode, and a value. -/
structure DriveVal where
  strength : Nat
  mode : Mode
  value : Int
deriving DecidableEq, Repr

/-- The `best` accumulator of `wire_update`: the strongest drive seen so far. -/
structure Best where
  strength : Nat
  mode : Mode
  value : Int
deriving DecidableEq, Repr

/-- The resolved state of a wire: the fields of `struct WireState` that
`wire_update` recomputes (`strength`, `value_mode`, `value`, `is_conflict`). -/
structure ResolveResult where
  strength : Nat
  mode : Mode
  value : Int
  conflict : Bool
deriving DecidableEq, Repr

/-- One iteration of the driver-walk loop in `wire_update`
(src/hw/core/wire.c lines 199-218), acting on the accumulator
`(best, is_conflict)` for the drive value of one attached driver. -/
def resolveStep (acc : Best × Bool) (d : DriveVal) : Best × Bool :=
  if d.strength = 0 ∨ acc.1.strength > d.strength then
    acc
  else if d.strength = acc.1.strength then
    if acc.2 then
      acc
    else if acc.1.mode ≠ d.mode then
      (acc.1, true)
    else if acc.1.value ≠ d.value then
      (acc.1, true)
    else
      acc
  else
    (⟨d.strength, d.mode, d.value⟩, false)

/-- The initial accumulator of `wire_update`:
`best = {HI_Z, VALUE_MODE_D, 0}`, `is_conflict = false`. -/
def resolveInit : Best × Bool := (⟨0, Mode.D, 0⟩, false)

/-- Fold of the `wire_update` loop body over a list of drive values, in
the order the list is given. -/
def resolveList (l : List DriveVal) : Best × Bool :=
  l.foldl resolveStep resolveInit

/-- The resolution computed by `wire_update` over the drive values of a
wire's attachments, given in attachment order.  The C loop
`for (i = VECTOR_LEN(wire->attachments); i--; )` walks the attachment
vector from last to first, hence the `reverse`. -/
def wireResolve (l : List DriveVal) : ResolveResult :=
  let r := resolveList l.reverse
  ⟨r.1.strength, r.1.mode, r.1.value, r.2⟩

/-- One step of the reference algorithm of spec §4.1, written from the
spec's bullet list: skip `HI_Z`; skip strictly weaker; on equal strength
skip if already conflicting, set conflict on any disagreement in mode or
value, otherwise no-op; a strictly stronger attachment overwrites `best`
and clears the conflict. -/
def resolveStepSpec (acc : Best × Bool) (a : DriveVal) : Best × Bool :=
  if a.strength = 0 then
    acc
  else if a.strength < acc.1.strength then
    acc
  else if a.strength = acc.1.strength then
    if acc.2 then
      acc
    else if a.mode ≠ acc.1.mode ∨ a.value ≠ acc.1.value then
      (acc.1, true)
    else
      acc
  else
    (⟨a.strength, a.mode, a.value⟩, false)

/-- The reference resolver of spec §4.1: fold the reference step from the
initial `best = (HI_Z, Digital, 0)`, `conflict = false`. -/
def resolveRef (l : List DriveVal) : ResolveResult :=
  let r := l.foldl resolveStepSpec resolveInit
  ⟨r.1.strength, r.1.mode, r.1.value, r.2⟩

/-- Maximum strength over a list of drive values (`0` when empty: every
strength is at least `STRENGTH_HI_Z = 0`). -/
def maxStr (l : List DriveVal) : Nat :=
  l.foldr (fun a m => max a.strength m) 0

/-- `a` disagrees with the pair `(m, v)` in mode or value. -/
def disagrees (m : Mode) (v : Int) (a : DriveVal) : Bool :=
  decide (m ≠ a.mode ∨ v ≠ a.value)

/-- The permutation-invariant contents of the conflict flag: two drivers
in the strongest (non-`HI_Z`) tier disagree in mode or value. -/
def tierDisagree (l : List DriveVal) : Prop :=
  ∃ x ∈ l, ∃ y ∈ l, x.strength = maxStr l ∧ y.strength = maxStr l ∧
    maxStr l ≠ 0 ∧ (x.mode ≠ y.mode ∨ x.value ≠ y.value)

/-- `struct WireState` (src/hw/core/wire.c lines 32-47): intrinsic
analogue scale, attachment vector (driver ids), listener vector
(handler/opaque token pairs), the cached resolved state
(`value`, `strength`, `value_mode`, `is_conflict`) and the transient
flags.  The 3-bit `strength` field always holds a value `< 8`: every
store goes through `% 8`. -/
structure Wire where
  intrinsic : Int
  attachments : List Nat
  listeners : List (Nat × Nat)
  value : Int
  strength : Nat
  mode : Mode
  is_conflict : Bool
  changed : Bool
  in_callback : Bool
  driver_changed : Bool
deriving DecidableEq, Repr

/-- The change-detection expression of `wire_update`
(src/hw/core/wire.c lines 221-229), as the C code computes it. -/
def changeDetect (w : Wire) (r : ResolveResult) : Bool :=
  decide (r.conflict ≠ w.is_conflict) ||
  (decide (r.strength = 0) && decide (w.strength ≠ 0)) ||
  (decide (r.strength ≠ 0) && decide (w.strength = 0)) ||
  (decide (r.strength ≠ 0) &&
    (decide (r.mode ≠ w.mode) || decide (r.value ≠ w.value)))

/-- The tail of `wire_update` (src/hw/core/wire.c lines 220-234): set
`changed` unless already set, then overwrite the cached resolved
state. -/
def applyResolve (w : Wire) (r : ResolveResult) : Wire :=
  { w with
    changed := if w.changed then w.changed else changeDetect w r
    strength := r.strength % 8
    is_conflict := r.conflict
    value := r.value
    mode := r.mode }

/-- The change predicate as the spec writes it (§4.1). -/
def changedSpec (old : Wire) (r : ResolveResult) : Prop :=
  (r.conflict ≠ old.is_conflict) ∨
  (old.strength ≠ 0 ∧ r.strength = 0) ∨
  (old.strength = 0 ∧ r.strength ≠ 0) ∨
  (r.strength ≠ 0 ∧ (r.mode ≠ old.mode ∨ r.value ≠ old.value))

instance changedSpecDecidable (old : Wire) (r : ResolveResult) :
    Decidable (changedSpec old r) := by
  unfold changedSpec
  exact inferInstance

/-- `qemu_wire_sense` (src/hw/core/wire.c lines 408-427); the returned
pair is (digital value, strength written through `strength_return`).
The C assignment `value = wire->value` to a `bool` is value `≠ 0`. -/
def qemu_wire_sense (w : Option Wire) : Bool × Nat :=
  match w with
  | none => (false, 0)
  | some w =>
    let value : Bool :=
      match w.mode with
      | Mode.A => decide (w.value ≥ Int.tdiv w.intrinsic 2)
      | Mode.D => decide (w.value ≠ 0)
    (value, w.strength)

/-- `qemu_wire_sense_a` (src/hw/core/wire.c lines 429-448). -/
def qemu_wire_sense_a (w : Option Wire) : Int × Nat :=
  match w with
  | none => (0, 0)
  | some w =>
    let value : Int :=
      match w.mode with
      | Mode.A => w.value
      | Mode.D => if w.value ≠ 0 then w.intrinsic else 0
    (value, w.strength)

/-- `qemu_wire_sense_strength` (src/hw/core/wire.c lines 471-474). -/
def qemu_wire_sense_strength (w : Option Wire) : Nat :=
  match w with
  | none => 0
  | some w => w.strength

/-- `qemu_wire_sense_conflicted` (src/hw/core/wire.c lines 476-479). -/
def qemu_wire_sense_conflicted (w : Option Wire) : Bool :=
  match w with
  | none => false
  | some w => w.is_conflict

/-- `struct WireDriverState` (src/hw/core/wire.c lines 143-150): the
driven value (3-bit strength, mode bit, value), the back-vector of
attached wire ids, and the transient `changed` flag used by
`qemu_wire_multi_drive`. -/
structure Driver where
  value : Int
  strength : Nat
  mode : Mode
  wires : List Nat
  changed : Bool
deriving DecidableEq, Repr

/-- The whole wire world: wires and drivers addressed by index
(a pointer is an index, `NULL` is `Option.none` at the API). -/
structure World where
  wires : List Wire
  drivers : List Driver
deriving DecidableEq, Repr

/-- A freshly allocated wire (`qemu_allocate_wire`):
`WIRE_INTRINSIC_DEFAULT = 3300000`, no attachments, no listeners,
cached `HI_Z` digital 0, all flags clear. -/
def defaultWire : Wire := ⟨3300000, [], [], 0, 0, Mode.D, false, false, false, false⟩

/-- A freshly allocated driver (`qemu_allocate_wiredriver`): `HI_Z`. -/
def defaultDriver : Driver := ⟨0, 0, Mode.D, [], false⟩

def wireAt (s : World) (i : Nat) : Wire := s.wires.getD i defaultWire

def driverAt (s : World) (i : Nat) : Driver := s.drivers.getD i defaultDriver

def setWire (s : World) (i : Nat) (w : Wire) : World :=
  { s with wires := s.wires.set i w }

def setDriver (s : World) (i : Nat) (d : Driver) : World :=
  { s with drivers := s.drivers.set i d }

/-- The drive values of a wire's attached drivers, in attachment order
(what the loop of `wire_update` reads through `attach->driver`). -/
def attachVals (s : World) (w : Wire) : List DriveVal :=
  w.attachments.map (fun di =>
    let d := driverAt s di
    ⟨d.strength, d.mode, d.value⟩)

/-- `wire_update` (src/hw/core/wire.c lines 186-235) acting on wire `wi`
of the world: recompute the resolution over the attached drivers and
store it, updating `changed` per the change-detection predicate. -/
def wire_update (s : World) (wi : Nat) : World :=
  let w := wireAt s wi
  setWire s wi (applyResolve w (wireResolve (attachVals s w)))

/-- `wire_call_listeners` (src/hw/core/wire.c lines 110-129): sets
`in_callback`, invokes every listener (modelled as pure observers, so
the sweep is recorded as one event in the log), then clears
`in_callback`. -/
def wire_call_listeners (s : World) (wi : Nat) (log : List Nat) :
    World × List Nat :=
  let w := wireAt s wi
  (setWire s wi { w with in_callback := false }, log ++ [wi])

/-- `wire_notify_if_changed` (src/hw/core/wire.c lines 131-137). -/
def wire_notify_if_changed (s : World) (wi : Nat) (log : List Nat) :
    World × List Nat :=
  let w := wireAt s wi
  if w.changed then
    wire_call_listeners (setWire s wi { w with changed := false }) wi log
  else
    (s, log)

/-- `struct qemu_wire_drive` (src/include/hw/wire.h lines 142-150): a
drive descriptor naming a driver (nullable), a value, a 3-bit strength
and a mode bit. -/
structure QemuWireDrive where
  driver : Option Nat
  value : Int
  strength : Nat
  mode : Mode
deriving DecidableEq, Repr

def markWires (s : World) (L : List Nat) : World :=
  L.foldl (fun s wi =>
    setWire s wi { wireAt s wi with driver_changed := true }) s

/-- One descriptor of phase 1: skip a NULL driver, skip a descriptor
equal to the driver's current state, otherwise copy the descriptor in,
set the driver's `changed` mark and the `driver_changed` flag of each of
its wires. -/
def phase1Step (s : World) (wd : QemuWireDrive) : World :=
  match wd.driver with
  | none => s
  | some di =>
    let d := driverAt s di
    if d.strength = wd.strength % 8 ∧ d.mode = wd.mode ∧
        d.value = wd.value then
      s
    else
      markWires (setDriver s di
        { d with
          strength := wd.strength % 8
          mode := wd.mode
          value := wd.value
          changed := true }) d.wires

/-- Phase 1 of `qemu_wire_multi_drive` (src/hw/core/wire.c lines
358-377): copy each descriptor into its driver unless it equals the
driver's current state; mark applied drivers `changed` and their wires
`driver_changed`.  A 3-bit descriptor strength field reads as
`strength % 8`. -/
def multi_drive_phase1 (s : World) (ds : List QemuWireDrive) : World :=
  ds.foldl phase1Step s

/-- The inner walk of phase 2: resolve each wire of a changed driver
whose `driver_changed` flag is still set, then clear the flag; the log
records each `wire_update` call. -/
def resolveWalk (acc : World × List Nat) (L : List Nat) :
    World × List Nat :=
  L.foldl (fun acc wi =>
    if (wireAt acc.1 wi).driver_changed then
      let s := wire_update acc.1 wi
      (setWire s wi { wireAt s wi with driver_changed := false },
       acc.2 ++ [wi])
    else acc) acc

/-- Phase 2 of `qemu_wire_multi_drive` (src/hw/core/wire.c lines
379-392): for each descriptor whose driver changed, walk its wires. -/
def multi_drive_phase2 (s : World) (ds : List QemuWireDrive) :
    World × List Nat :=
  ds.foldl (fun acc wd =>
    match wd.driver with
    | none => acc
    | some di =>
      if (driverAt acc.1 di).changed then
        resolveWalk acc (driverAt acc.1 di).wires
      else acc) (s, [])

/-- The inner walk of phase 3: `wire_notify_if_changed` on each wire. -/
def notifyWalk (acc : World × List Nat) (L : List Nat) :
    World × List Nat :=
  L.foldl (fun acc wi => wire_notify_if_changed acc.1 wi acc.2) acc

/-- Phase 3 of `qemu_wire_multi_drive` (src/hw/core/wire.c lines
394-405): for each descriptor whose driver is still marked changed,
clear the mark and notify the driver's wires. -/
def multi_drive_phase3 (s : World) (ds : List QemuWireDrive)
    (log : List Nat) : World × List Nat :=
  ds.foldl (fun acc wd =>
    match wd.driver with
    | none => acc
    | some di =>
      let d := driverAt acc.1 di
      if d.changed then
        notifyWalk (setDriver acc.1 di { d with changed := false }, acc.2)
          d.wires
      else acc) (s, log)

/-- `qemu_wire_multi_drive` (src/hw/core/wire.c lines 351-406).  Returns
the final world, the list of wires passed to `wire_update` in phase 2,
and the list of wires whose listeners were swept in phase 3. -/
def qemu_wire_multi_drive (s : World) (ds : List QemuWireDrive) :
    World × List Nat × List Nat :=
  let s1 := multi_drive_phase1 s ds
  let p2 := multi_drive_phase2 s1 ds
  let p3 := multi_drive_phase3 p2.1 ds []
  (p3.1, p2.2, p3.2)

/-- `struct qemu_wire_drive` initialisation: the `strength : 3`
bit-field stores the requested strength modulo 8. -/
def mkWireDrive (driver : Option Nat) (value : Int) (strength : Nat)
    (mode : Mode) : QemuWireDrive :=
  ⟨driver, value, strength % 8, mode⟩

/-- `qemu_wire_drive` (src/hw/core/wire.c lines 329-338). -/
def qemu_wire_drive (s : World) (driver : Option Nat) (strength : Nat)
    (dval : Bool) : World × List Nat × List Nat :=
  qemu_wire_multi_drive s
    [mkWireDrive driver (if dval then 1 else 0) strength Mode.D]

/-- `qemu_wire_drive_a` (src/hw/core/wire.c lines 340-349). -/
def qemu_wire_drive_a (s : World) (driver : Option Nat) (strength : Nat)
    (aval : Int) : World × List Nat × List Nat :=
  qemu_wire_multi_drive s [mkWireDrive driver aval strength Mode.A]

/-- `qemu_wire_drive_z` (src/hw/core/wire.c lines 324-327). -/
def qemu_wire_drive_z (s : World) (driver : Option Nat) :
    World × List Nat × List Nat :=
  qemu_wire_drive s driver 0 false

/-- Remove the last occurrence of `x` (the C deletion loops search
backwards from the end of the vector). -/
def removeLast {α : Type} [DecidableEq α] (l : List α) (x : α) : List α :=
  (l.reverse.erase x).reverse

/-- `qemu_wire_attach` (src/hw/core/wire.c lines 279-289).  A NULL wire
is a no-op; a non-NULL wire with a NULL driver dereferences the NULL
driver (`VECTOR_APPEND(driver->wires, wire)`), modelled as `none`. -/
def qemu_wire_attach (s : World) (wire : Option Nat)
    (driver : Option Nat) : Option World :=
  match wire with
  | none => some s
  | some wi =>
    match driver with
    | none => none
    | some di =>
      let w := wireAt s wi
      let s := setWire s wi { w with attachments := w.attachments ++ [di] }
      let d := driverAt s di
      some (setDriver s di { d with wires := d.wires ++ [wi] })

/-- `qemu_wire_detach` (src/hw/core/wire.c lines 291-315).  A NULL wire
is a no-op; a non-NULL wire with a NULL driver dereferences the NULL
driver (`VECTOR_LEN(driver->wires)`), modelled as `none`.  On success
the wire is re-resolved and a notification may be emitted. -/
def qemu_wire_detach (s : World) (wire : Option Nat)
    (driver : Option Nat) : Option (World × List Nat) :=
  match wire with
  | none => some (s, [])
  | some wi =>
    match driver with
    | none => none
    | some di =>
      let d := driverAt s di
      let s := setDriver s di { d with wires := removeLast d.wires wi }
      let w := wireAt s wi
      let s := setWire s wi
        { w with attachments := removeLast w.attachments di }
      some (wire_notify_if_changed (wire_update s wi) wi [])

/-- `qemu_wire_listen` (src/hw/core/wire.c lines 82-89); a listener is a
`(handler, opaque)` token pair. -/
def qemu_wire_listen (s : World) (wire : Option Nat) (handler opq : Nat) :
    World :=
  match wire with
  | none => s
  | some wi =>
    let w := wireAt s wi
    setWire s wi { w with listeners := w.listeners ++ [(handler, opq)] }

/-- `qemu_wire_unlisten` (src/hw/core/wire.c lines 91-107): removes the
most recently added matching listener (backwards search). -/
def qemu_wire_unlisten (s : World) (wire : Option Nat)
    (handler opq : Nat) : World :=
  match wire with
  | none => s
  | some wi =>
    let w := wireAt s wi
    setWire s wi
      { w with listeners := removeLast w.listeners (handler, opq) }

/-- `qemu_set_wire_intrinsic` (src/hw/core/wire.c lines 317-322). -/
def qemu_set_wire_intrinsic (s : World) (wire : Option Nat) (v : Int) :
    World :=
  match wire with
  | none => s
  | some wi => setWire s wi { wireAt s wi with intrinsic := v }

/-- All transient flags clear: spec invariant (I3). -/
def flagsClear (s : World) : Prop :=
  (∀ w ∈ s.wires, w.changed = false ∧ w.in_callback = false ∧
    w.driver_changed = false) ∧
  (∀ d ∈ s.drivers, d.changed = false)

instance flagsClearDecidable (s : World) : Decidable (flagsClear s) := by
  unfold flagsClear
  exact inferInstance

/-- The state after phase 2 resolves wire `a`: `wire_update` followed by
clearing `driver_changed`. -/
def resolveStepState (s : World) (a : Nat) : World :=
  setWire (wire_update s a) a
    { wireAt (wire_update s a) a with driver_changed := false }

/-- Phase 2 with an explicit accumulator. -/
def phase2Aux (acc : World × List Nat) (ds : List QemuWireDrive) :
    World × List Nat :=
  ds.foldl (fun acc wd =>
    match wd.driver with
    | none => acc
    | some di =>
      if (driverAt acc.1 di).changed then
        resolveWalk acc (driverAt acc.1 di).wires
      else acc) acc

/-- The wires phase 2 walks: the concatenated wire lists of the drivers
marked `changed`, per descriptor. -/
def phase2Visits (s : World) (ds : List QemuWireDrive) : List Nat :=
  ds.foldr (fun wd acc =>
    match wd.driver with
    | none => acc
    | some di =>
      if (driverAt s di).changed then (driverAt s di).wires ++ acc
      else acc) []

/-- A wire record after a notification sweep: `changed` cleared by
`wire_notify_if_changed`, `in_callback` cleared at the end of
`wire_call_listeners`. -/
def notifiedWire (w : Wire) : Wire :=
  { w with changed := false, in_callback := false }

/-- A driver record with its `changed` mark cleared (phase 3). -/
def clearedDriver (d : Driver) : Driver := { d with changed := false }

/-- The wires phase 3 walks: wire lists of drivers still marked
`changed` when their descriptor is reached (a driver's mark is cleared
at its first dirty descriptor, so duplicates walk only once). -/
def phase3Visits (s : World) (ds : List QemuWireDrive) : List Nat :=
  match ds with
  | [] => []
  | wd :: ds =>
    match wd.driver with
    | none => phase3Visits s ds
    | some di =>
      if (driverAt s di).changed then
        (driverAt s di).wires ++
          phase3Visits (setDriver s di (clearedDriver (driverAt s di))) ds
      else phase3Visits s ds

/-- `struct multi_listener` (src/hw/core/wire.c lines 482-490): user
handler/opaque tokens, wire count, the snapshot
`(value, weakest_strength, in_conflict)` and the watched wires. -/
structure MultiListener where
  handler : Nat
  opq : Nat
  n : Nat
  value : Nat
  weakest_strength : Nat
  in_conflict : Bool
  wires : List (Option Nat)
deriving DecidableEq, Repr

/-- Loop of `qemu_wire_multi_sense` (src/hw/core/wire.c lines 450-469):
collect each wire's digital value into bit `i` and track the weakest
strength (seeded from the first wire). -/
def multi_sense_loop (s : World) :
    List (Option Nat) → Nat → Nat → Nat → Nat × Nat
  | [], _, result, weakest => (result, weakest)
  | w :: ws, i, result, weakest =>
    let p := qemu_wire_sense (w.map (wireAt s))
    let result := if p.1 then result ||| (1 <<< i) else result
    let weakest := if i = 0 ∨ p.2 < weakest then p.2 else weakest
    multi_sense_loop s ws (i + 1) result weakest

/-- `qemu_wire_multi_sense`: at most 32 wires are read. -/
def qemu_wire_multi_sense (s : World) (ws : List (Option Nat)) :
    Nat × Nat :=
  multi_sense_loop s (ws.take 32) 0 0 0

/-- The conflict recomputation at the top of `multi_handler`
(src/hw/core/wire.c lines 501-503): some non-NULL watched wire is
currently in conflict. -/
def recomputeConflict (s : World) (ml : MultiListener) : Bool :=
  ml.wires.any (fun w =>
    match w with
    | none => false
    | some wi => (wireAt s wi).is_conflict)

/-- `multi_handler` (src/hw/core/wire.c lines 492-518): the composite
update run on a member wire's notification.  Returns the (possibly
updated) listener record and whether the user handler was invoked. -/
def multi_handler (s : World) (ml : MultiListener) :
    MultiListener × Bool :=
  let in_conflict := recomputeConflict s ml
  if in_conflict && ml.in_conflict then
    (ml, false)
  else
    let p := qemu_wire_multi_sense s ml.wires
    let changed :=
      (in_conflict != ml.in_conflict) ||
      (decide (p.2 = 0) && decide (ml.weakest_strength ≠ 0)) ||
      (decide (p.2 ≠ 0) && decide (ml.weakest_strength = 0)) ||
      (decide (p.2 ≠ 0) &&
        (decide (p.1 ≠ ml.value) || decide (ml.n > 32)))
    if changed then
      ({ ml with
          weakest_strength := p.2
          value := p.1
          in_conflict := in_conflict }, true)
    else
      (ml, false)

theorem resolveStep_eq_spec (acc : Best × Bool) (d : DriveVal) :
    resolveStep acc d = resolveStepSpec acc d := by
  rcases acc with ⟨⟨bs, bm, bv⟩, c⟩
  rcases d with ⟨ds, dm, dv⟩
  by_cases h0 : ds = 0
  · simp [resolveStep, resolveStepSpec, h0]
  by_cases hlt : ds < bs
  · have hgt : bs > ds := hlt
    simp [resolveStep, resolveStepSpec, h0, hlt, hgt]
  by_cases heq : ds = bs
  · subst heq
    by_cases hc : c
    · simp [resolveStep, resolveStepSpec, h0, hc]
    · by_cases hm : bm = dm
      · by_cases hv : bv = dv
        · simp [resolveStep, resolveStepSpec, h0, hc, hm, hv]
        · simp [resolveStep, resolveStepSpec, h0, hc, hm, hv, Ne.symm hv]
      · simp [resolveStep, resolveStepSpec, h0, hc, hm, Ne.symm hm]
  · have hgt : ¬ bs > ds := by omega
    simp [resolveStep, resolveStepSpec, h0, hlt, heq, hgt]

theorem resolveList_eq_spec (l : List DriveVal) (acc : Best × Bool) :
    l.foldl resolveStep acc = l.foldl resolveStepSpec acc := by
  induction l generalizing acc with
  | nil => rfl
  | cons a l ih => simp [List.foldl_cons, resolveStep_eq_spec, ih]

/-- C1: `wire_update` resolves a wire exactly per the reference algorithm
of spec §4.1: its per-attachment case analysis coincides with the
reference step (skip `HI_Z`; a strictly stronger attachment overwrites
`best` and clears the conflict; equal strength differing in mode or
value sets the conflict; equal strength with identical mode and value is
a no-op), the fold over the attachments (walked back-to-front by the C
loop) is the fold of that reference step, and zero attachments yield
`(HI_Z, Digital, 0, conflict = false)`. -/
theorem wire_update_follows_reference_resolver :
    (∀ (acc : Best × Bool) (a : DriveVal),
        resolveStep acc a = resolveStepSpec acc a) ∧
    (∀ l : List DriveVal, wireResolve l = resolveRef l.reverse) ∧
    wireResolve [] = ⟨0, Mode.D, 0, false⟩ := by
  refine ⟨resolveStep_eq_spec, fun l => ?_, rfl⟩
  unfold wireResolve resolveRef resolveList
  rw [resolveList_eq_spec]

theorem maxStr_cons (a : DriveVal) (l : List DriveVal) :
    maxStr (a :: l) = max a.strength (maxStr l) := rfl

theorem maxStr_perm {l₁ l₂ : List DriveVal} (h : l₁.Perm l₂) :
    maxStr l₁ = maxStr l₂ := by
  induction h with
  | nil => rfl
  | cons x _ ih => simp [maxStr_cons, ih]
  | swap x y l => simp [maxStr_cons, max_left_comm]
  | trans _ _ ih₁ ih₂ => exact ih₁.trans ih₂

theorem any_perm {l₁ l₂ : List DriveVal} (h : l₁.Perm l₂)
    (p : DriveVal → Bool) : l₁.any p = l₂.any p := by
  induction h with
  | nil => rfl
  | cons x _ ih => simp [List.any_cons, ih]
  | swap x y l => simp [List.any_cons, Bool.or_left_comm]
  | trans _ _ ih₁ ih₂ => exact ih₁.trans ih₂


theorem resolveStep_skip (acc : Best × Bool) (a : DriveVal)
    (h : a.strength = 0 ∨ acc.1.strength > a.strength) :
    resolveStep acc a = acc := by
  unfold resolveStep
  rw [if_pos h]

theorem resolveStep_tie_conflict (acc : Best × Bool) (a : DriveVal)
    (h0 : ¬ (a.strength = 0 ∨ acc.1.strength > a.strength))
    (he : a.strength = acc.1.strength) (hc : acc.2 = true) :
    resolveStep acc a = acc := by
  unfold resolveStep
  rw [if_neg h0, if_pos he, if_pos hc]

theorem resolveStep_tie_diff (acc : Best × Bool) (a : DriveVal)
    (h0 : ¬ (a.strength = 0 ∨ acc.1.strength > a.strength))
    (he : a.strength = acc.1.strength) (hc : acc.2 = false)
    (hd : disagrees acc.1.mode acc.1.value a = true) :
    resolveStep acc a = (acc.1, true) := by
  unfold resolveStep
  rw [if_neg h0, if_pos he, if_neg (by simp [hc])]
  simp only [disagrees, decide_eq_true_eq] at hd
  by_cases hm : acc.1.mode ≠ a.mode
  · rw [if_pos hm]
  · rw [if_neg hm]
    rcases hd with hd | hd
    · exact absurd hd hm
    · rw [if_pos hd]

theorem resolveStep_tie_same (acc : Best × Bool) (a : DriveVal)
    (h0 : ¬ (a.strength = 0 ∨ acc.1.strength > a.strength))
    (he : a.strength = acc.1.strength) (hc : acc.2 = false)
    (hd : disagrees acc.1.mode acc.1.value a = false) :
    resolveStep acc a = acc := by
  unfold resolveStep
  simp only [disagrees, decide_eq_false_iff_not, not_or, not_not] at hd
  rw [if_neg h0, if_pos he, if_neg (by simp [hc]), if_neg (by simp [hd.1]),
    if_neg (by simp [hd.2])]

theorem resolveStep_over (acc : Best × Bool) (a : DriveVal)
    (h0 : ¬ (a.strength = 0 ∨ acc.1.strength > a.strength))
    (hne : ¬ a.strength = acc.1.strength) :
    resolveStep acc a = (⟨a.strength, a.mode, a.value⟩, false) := by
  unfold resolveStep
  rw [if_neg h0, if_neg hne]

theorem resolveStep_fst_strength (acc : Best × Bool) (a : DriveVal) :
    (resolveStep acc a).1.strength = max acc.1.strength a.strength := by
  by_cases h0 : a.strength = 0 ∨ acc.1.strength > a.strength
  · rw [resolveStep_skip acc a h0]
    omega
  · by_cases he : a.strength = acc.1.strength
    · cases hc : acc.2 with
      | true =>
        rw [resolveStep_tie_conflict acc a h0 he hc]
        omega
      | false =>
        cases hd : disagrees acc.1.mode acc.1.value a with
        | true =>
          rw [resolveStep_tie_diff acc a h0 he hc hd]
          simp
          omega
        | false =>
          rw [resolveStep_tie_same acc a h0 he hc hd]
          omega
    · rw [resolveStep_over acc a h0 he]
      simp
      omega

theorem resolve_skip (l : List DriveVal) (acc : Best × Bool)
    (h : maxStr l = 0 ∨ maxStr l < acc.1.strength) :
    l.foldl resolveStep acc = acc := by
  induction l generalizing acc with
  | nil => rfl
  | cons a l ih =>
    rw [maxStr_cons] at h
    have ha : a.strength = 0 ∨ acc.1.strength > a.strength := by omega
    rw [List.foldl_cons, resolveStep_skip acc a ha]
    exact ih acc (by omega)

theorem resolve_strength (l : List DriveVal) (acc : Best × Bool) :
    (l.foldl resolveStep acc).1.strength = max acc.1.strength (maxStr l) := by
  induction l generalizing acc with
  | nil => simp [maxStr]
  | cons a l ih =>
    rw [List.foldl_cons, ih, resolveStep_fst_strength, maxStr_cons]
    omega

theorem resolve_tie (l : List DriveVal) (b : Best) (c : Bool)
    (hb : b.strength ≠ 0) (hm : maxStr l ≤ b.strength) :
    l.foldl resolveStep (b, c) =
      (b, c || l.any (fun a =>
        decide (a.strength = b.strength) && disagrees b.mode b.value a)) := by
  induction l generalizing c with
  | nil => simp
  | cons a l ih =>
    rw [maxStr_cons] at hm
    rw [List.foldl_cons, List.any_cons]
    by_cases h0 : a.strength = 0 ∨ b.strength > a.strength
    · have hterm : ¬ a.strength = b.strength := by omega
      rw [resolveStep_skip (b, c) a h0, ih c (by omega)]
      simp [hterm]
    · have heq : a.strength = b.strength := by omega
      by_cases hc : c
      · rw [resolveStep_tie_conflict (b, c) a h0 heq hc, ih c (by omega)]
        simp [hc]
      · have hc' : c = false := by simp [hc]
        cases hd : disagrees b.mode b.value a with
        | true =>
          rw [resolveStep_tie_diff (b, c) a h0 heq hc' hd,
            ih true (by omega)]
          simp [heq, hd, hc']
        | false =>
          rw [resolveStep_tie_same (b, c) a h0 heq hc' hd,
            ih c (by omega)]
          simp [hd]

theorem resolve_over (l : List DriveVal) (acc : Best × Bool)
    (h : maxStr l > acc.1.strength) :
    ∃ ch ∈ l, ch.strength = maxStr l ∧
      l.foldl resolveStep acc =
        (⟨maxStr l, ch.mode, ch.value⟩,
         l.any fun a => decide (a.strength = maxStr l) &&
           disagrees ch.mode ch.value a) := by
  induction l generalizing acc with
  | nil => simp [maxStr] at h
  | cons a l ih =>
    by_cases hcase : maxStr l ≤ a.strength
    · have hM : maxStr (a :: l) = a.strength := by rw [maxStr_cons]; omega
      have ha : a.strength > acc.1.strength := by
        rw [maxStr_cons] at h; omega
      have h0 : ¬ (a.strength = 0 ∨ acc.1.strength > a.strength) := by omega
      have hne : ¬ a.strength = acc.1.strength := by omega
      refine ⟨a, List.mem_cons_self a l, hM.symm, ?_⟩
      rw [List.foldl_cons, resolveStep_over acc a h0 hne,
        resolve_tie l ⟨a.strength, a.mode, a.value⟩ false (by dsimp only; omega)
          hcase,
        hM, List.any_cons]
      simp [disagrees]
    · push_neg at hcase
      have hM : maxStr (a :: l) = maxStr l := by rw [maxStr_cons]; omega
      have hstr : (resolveStep acc a).1.strength =
          max acc.1.strength a.strength := resolveStep_fst_strength acc a
      obtain ⟨ch, hch, hchs, hfold⟩ := ih (resolveStep acc a) (by
        rw [hstr]
        rw [maxStr_cons] at h
        omega)
      refine ⟨ch, List.mem_cons_of_mem a hch, by rw [hM]; exact hchs, ?_⟩
      rw [List.foldl_cons, hM, List.any_cons, hfold]
      have hterm : decide (a.strength = maxStr l) = false := by
        simp only [decide_eq_false_iff_not]
        omega
      rw [hterm]
      simp

theorem ResolveResult.ext' (x y : ResolveResult)
    (h1 : x.strength = y.strength) (h2 : x.mode = y.mode)
    (h3 : x.value = y.value) (h4 : x.conflict = y.conflict) : x = y := by
  cases x; cases y; simp_all

theorem wireResolve_strength (l : List DriveVal) :
    (wireResolve l).strength = maxStr l := by
  simp only [wireResolve, resolveList]
  rw [resolve_strength, maxStr_perm (List.reverse_perm l)]
  simp [resolveInit]

theorem wireResolve_hiZ (l : List DriveVal) (h : maxStr l = 0) :
    wireResolve l = ⟨0, Mode.D, 0, false⟩ := by
  simp only [wireResolve, resolveList]
  rw [resolve_skip l.reverse resolveInit
    (Or.inl (by rw [maxStr_perm (List.reverse_perm l)]; exact h))]
  rfl

theorem wireResolve_champ (l : List DriveVal) (h : maxStr l ≠ 0) :
    ∃ ch ∈ l, ch.strength = maxStr l ∧
      wireResolve l = ⟨maxStr l, ch.mode, ch.value,
        l.any fun a => decide (a.strength = maxStr l) &&
          disagrees ch.mode ch.value a⟩ := by
  have hrev : maxStr l.reverse = maxStr l := maxStr_perm (List.reverse_perm l)
  obtain ⟨ch, hch, hchs, hfold⟩ := resolve_over l.reverse resolveInit (by
    rw [hrev]
    simp only [resolveInit]
    omega)
  rw [hrev] at hchs
  refine ⟨ch, List.mem_reverse.mp hch, hchs, ?_⟩
  have hlist : resolveList l.reverse = (⟨maxStr l, ch.mode, ch.value⟩,
      l.any fun a => decide (a.strength = maxStr l) &&
        disagrees ch.mode ch.value a) := by
    unfold resolveList
    rw [hfold, hrev, any_perm (List.reverse_perm l)]
  simp only [wireResolve]
  rw [hlist]

theorem wireResolve_conflict_iff (l : List DriveVal) :
    (wireResolve l).conflict = true ↔ tierDisagree l := by
  by_cases h : maxStr l = 0
  · rw [wireResolve_hiZ l h]
    simp only [Bool.false_eq_true, false_iff]
    rintro ⟨x, hx, y, hy, hxs, hys, h0, hd⟩
    exact h0 h
  · obtain ⟨ch, hch, hchs, heq⟩ := wireResolve_champ l h
    rw [heq]
    simp only [List.any_eq_true, Bool.and_eq_true, decide_eq_true_eq,
      disagrees]
    constructor
    · rintro ⟨a, ha, has, hdis⟩
      exact ⟨ch, hch, a, ha, hchs, has, h, hdis⟩
    · rintro ⟨x, hx, y, hy, hxs, hys, -, hd⟩
      by_cases hdx : ch.mode ≠ x.mode ∨ ch.value ≠ x.value
      · exact ⟨x, hx, hxs, hdx⟩
      · push_neg at hdx
        refine ⟨y, hy, hys, ?_⟩
        rcases hd with hd | hd
        · left; rw [hdx.1]; exact hd
        · right; rw [hdx.2]; exact hd

theorem tierDisagree_perm {l₁ l₂ : List DriveVal} (h : l₁.Perm l₂) :
    tierDisagree l₁ → tierDisagree l₂ := by
  have hM := maxStr_perm h
  rintro ⟨x, hx, y, hy, hxs, hys, h0, hd⟩
  exact ⟨x, h.mem_iff.mp hx, y, h.mem_iff.mp hy, hM ▸ hxs, hM ▸ hys,
    hM ▸ h0, hd⟩

theorem wireResolve_no_conflict (l : List DriveVal) (h : maxStr l ≠ 0)
    (hc : (wireResolve l).conflict = false) :
    ∀ a ∈ l, a.strength = maxStr l →
      a.mode = (wireResolve l).mode ∧ a.value = (wireResolve l).value := by
  obtain ⟨ch, hch, hchs, heq⟩ := wireResolve_champ l h
  intro a ha has
  rw [heq] at hc ⊢
  simp only [List.any_eq_false, Bool.and_eq_true, decide_eq_true_eq,
    disagrees, not_and, not_or, not_not] at hc
  have := hc a ha has
  exact ⟨this.1.symm, this.2.symm⟩

/-- C4 (amended): the Resolver is order-independent in strength and
conflict: for every permutation of the attachments the resolved strength
and conflict flag are unchanged, and whenever the result is not in
conflict the whole `(strength, mode, value, conflict)` tuple is
unchanged.  (Under conflict the cached mode/value depend on the
attachment order, see the counterexample.) -/
theorem resolver_perm_invariant (l₁ l₂ : List DriveVal) (h : l₁.Perm l₂) :
    (wireResolve l₁).strength = (wireResolve l₂).strength ∧
    (wireResolve l₁).conflict = (wireResolve l₂).conflict ∧
    ((wireResolve l₁).conflict = false → wireResolve l₁ = wireResolve l₂) := by
  have hM := maxStr_perm h
  have hconf : (wireResolve l₁).conflict = (wireResolve l₂).conflict := by
    cases h₁ : (wireResolve l₁).conflict <;>
      cases h₂ : (wireResolve l₂).conflict
    · rfl
    · exfalso
      have t := (wireResolve_conflict_iff l₂).mp h₂
      have t2 := tierDisagree_perm h.symm t
      have t3 := (wireResolve_conflict_iff l₁).mpr t2
      rw [h₁] at t3
      exact Bool.false_ne_true t3
    · exfalso
      have t := (wireResolve_conflict_iff l₁).mp h₁
      have t2 := tierDisagree_perm h t
      have t3 := (wireResolve_conflict_iff l₂).mpr t2
      rw [h₂] at t3
      exact Bool.false_ne_true t3
    · rfl
  refine ⟨by rw [wireResolve_strength, wireResolve_strength, hM], hconf, ?_⟩
  intro hc
  by_cases h0 : maxStr l₁ = 0
  · rw [wireResolve_hiZ l₁ h0, wireResolve_hiZ l₂ (by rw [← hM]; exact h0)]
  · obtain ⟨ch, hch, hchs, heq⟩ := wireResolve_champ l₁ h0
    have hc₂ : (wireResolve l₂).conflict = false := by rw [← hconf]; exact hc
    have hmv := wireResolve_no_conflict l₂ (by rw [← hM]; exact h0) hc₂ ch
      (h.mem_iff.mp hch) (by rw [← hM]; exact hchs)
    apply ResolveResult.ext'
    · rw [wireResolve_strength, wireResolve_strength, hM]
    · rw [heq]
      exact hmv.1
    · rw [heq]
      exact hmv.2
    · exact hconf

/-- C4 counterexample: shuffling the attachments CAN change the resolved
tuple.  Two equal-strength drivers that disagree put the wire in
conflict, and the cached value is the one of whichever driver the walk
reaches first, so swapping the two attachments changes the cached value
(1 versus 0). -/
theorem resolver_not_order_independent :
    ([⟨5, Mode.D, 0⟩, ⟨5, Mode.D, 1⟩] : List DriveVal).Perm
      [⟨5, Mode.D, 1⟩, ⟨5, Mode.D, 0⟩] ∧
    wireResolve [⟨5, Mode.D, 0⟩, ⟨5, Mode.D, 1⟩] ≠
      wireResolve [⟨5, Mode.D, 1⟩, ⟨5, Mode.D, 0⟩] :=
  ⟨List.Perm.swap _ _ _, by decide⟩

theorem resolver_perm_invariant_witness :
    (wireResolve [⟨3, Mode.D, 1⟩, ⟨5, Mode.D, 0⟩]).strength =
      (wireResolve [⟨5, Mode.D, 0⟩, ⟨3, Mode.D, 1⟩]).strength ∧
    (wireResolve [⟨3, Mode.D, 1⟩, ⟨5, Mode.D, 0⟩]).conflict =
      (wireResolve [⟨5, Mode.D, 0⟩, ⟨3, Mode.D, 1⟩]).conflict ∧
    ((wireResolve [⟨3, Mode.D, 1⟩, ⟨5, Mode.D, 0⟩]).conflict = false →
      wireResolve [⟨3, Mode.D, 1⟩, ⟨5, Mode.D, 0⟩] =
        wireResolve [⟨5, Mode.D, 0⟩, ⟨3, Mode.D, 1⟩]) :=
  resolver_perm_invariant _ _ (List.Perm.swap _ _ _)

theorem bool_eq_of_iff {a b : Bool} (h : a = true ↔ b = true) : a = b := by
  cases a <;> cases b <;> simp_all

/-- C2: resolution sets `changed` to exactly
`changed ∨ (new.conflict ≠ old.conflict) ∨ (old.strength ≠ HI_Z ∧
new.strength = HI_Z) ∨ (old.strength = HI_Z ∧ new.strength ≠ HI_Z) ∨
(new.strength ≠ HI_Z ∧ (new.mode ≠ old.mode ∨ new.value ≠ old.value))`;
in particular an already-set `changed` flag is never cleared. -/
theorem change_flag_exact (w : Wire) (l : List DriveVal) :
    (applyResolve w (wireResolve l)).changed =
      (w.changed || decide (changedSpec w (wireResolve l))) ∧
    (w.changed = true → (applyResolve w (wireResolve l)).changed = true) := by
  constructor
  · by_cases hc : w.changed
    · simp [applyResolve, hc]
    · have hc' : w.changed = false := by simp [hc]
      simp only [applyResolve, hc', Bool.false_eq_true, if_false,
        Bool.false_or]
      apply bool_eq_of_iff
      simp only [changeDetect, changedSpec, Bool.or_eq_true,
        Bool.and_eq_true, decide_eq_true_eq]
      tauto
  · intro h
    simp [applyResolve, h]

theorem change_flag_exact_witness :
    (applyResolve ⟨3300000, [], [], 0, 0, Mode.D, false, true, false, false⟩
      (wireResolve [])).changed = true :=
  (change_flag_exact
    ⟨3300000, [], [], 0, 0, Mode.D, false, true, false, false⟩ []).2 rfl

/-- C7: cross-mode sensing converts through the intrinsic value: an
analogue-mode wire senses digitally as `value ≥ intrinsic / 2` (C
truncating division), a digital-mode wire senses in analogue as
`intrinsic` when its value is nonzero and `0` otherwise, each paired
with the cached strength, and a NULL wire senses as
`(false, HI_Z)` / `(0, HI_Z)`. -/
theorem cross_mode_sensing (w : Wire) :
    (w.mode = Mode.A →
      qemu_wire_sense (some w) =
        (decide (w.value ≥ Int.tdiv w.intrinsic 2), w.strength) ∧
      qemu_wire_sense_a (some w) = (w.value, w.strength)) ∧
    (w.mode = Mode.D →
      qemu_wire_sense_a (some w) =
        ((if w.value ≠ 0 then w.intrinsic else 0), w.strength) ∧
      qemu_wire_sense (some w) = (decide (w.value ≠ 0), w.strength)) ∧
    qemu_wire_sense none = (false, 0) ∧
    qemu_wire_sense_a none = (0, 0) := by
  refine ⟨fun hm => ?_, fun hm => ?_, rfl, rfl⟩ <;>
    simp [qemu_wire_sense, qemu_wire_sense_a, hm]

theorem cross_mode_sensing_witness :
    qemu_wire_sense
      (some ⟨3300000, [], [], 12345, 5, Mode.A, false, false, false, false⟩) =
      (false, 5) ∧
    qemu_wire_sense_a
      (some ⟨3300000, [], [], 1, 5, Mode.D, false, false, false, false⟩) =
      (3300000, 5) := by
  constructor
  · have h := (cross_mode_sensing
      ⟨3300000, [], [], 12345, 5, Mode.A, false, false, false, false⟩).1 rfl
    rw [h.1]
    decide
  · have h := ((cross_mode_sensing
      ⟨3300000, [], [], 1, 5, Mode.D, false, false, false, false⟩).2).1 rfl
    rw [h.1]
    decide

theorem wireAt_setWire (s : World) (i j : Nat) (w : Wire) :
    wireAt (setWire s i w) j =
      if i = j ∧ i < s.wires.length then w else wireAt s j := by
  unfold wireAt setWire
  simp only [List.getD_eq_getElem?_getD, List.getElem?_set]
  by_cases hij : i = j
  · subst hij
    by_cases hl : i < s.wires.length
    · simp [hl]
    · simp only [hl, and_false, if_false, if_neg hl]
      rw [List.getElem?_eq_none (by omega)]
      simp
  · simp [hij]

theorem driverAt_setDriver (s : World) (i j : Nat) (d : Driver) :
    driverAt (setDriver s i d) j =
      if i = j ∧ i < s.drivers.length then d else driverAt s j := by
  unfold driverAt setDriver
  simp only [List.getD_eq_getElem?_getD, List.getElem?_set]
  by_cases hij : i = j
  · subst hij
    by_cases hl : i < s.drivers.length
    · simp [hl]
    · simp only [hl, and_false, if_false, if_neg hl]
      rw [List.getElem?_eq_none (by omega)]
      simp
  · simp [hij]

theorem wireAt_setDriver (s : World) (i : Nat) (d : Driver) (j : Nat) :
    wireAt (setDriver s i d) j = wireAt s j := rfl

theorem driverAt_setWire (s : World) (i : Nat) (w : Wire) (j : Nat) :
    driverAt (setWire s i w) j = driverAt s j := rfl

theorem drivers_setWire (s : World) (i : Nat) (w : Wire) :
    (setWire s i w).drivers = s.drivers := rfl

theorem wires_length_setWire (s : World) (i : Nat) (w : Wire) :
    (setWire s i w).wires.length = s.wires.length := by
  unfold setWire
  exact List.length_set s.wires i w

theorem wires_setDriver (s : World) (i : Nat) (d : Driver) :
    (setDriver s i d).wires = s.wires := rfl

theorem drivers_length_setDriver (s : World) (i : Nat) (d : Driver) :
    (setDriver s i d).drivers.length = s.drivers.length := by
  unfold setDriver
  exact List.length_set s.drivers i d

theorem wireAt_out_of_range (s : World) (i : Nat)
    (h : s.wires.length ≤ i) : wireAt s i = defaultWire := by
  unfold wireAt
  rw [List.getD_eq_getElem?_getD, List.getElem?_eq_none (by omega)]
  rfl

theorem applyResolve_changed (w : Wire) (r : ResolveResult) :
    (applyResolve w r).changed = (w.changed || changeDetect w r) := by
  by_cases h : w.changed <;> simp [applyResolve, h]

theorem applyResolve_fields (w : Wire) (r : ResolveResult) :
    (applyResolve w r).attachments = w.attachments ∧
    (applyResolve w r).listeners = w.listeners ∧
    (applyResolve w r).intrinsic = w.intrinsic ∧
    (applyResolve w r).in_callback = w.in_callback ∧
    (applyResolve w r).driver_changed = w.driver_changed :=
  ⟨rfl, rfl, rfl, rfl, rfl⟩

theorem attachVals_congr (s₁ s₂ : World) (w : Wire)
    (h : s₁.drivers = s₂.drivers) : attachVals s₁ w = attachVals s₂ w := by
  unfold attachVals driverAt
  rw [h]

theorem drivers_wire_update (s : World) (wi : Nat) :
    (wire_update s wi).drivers = s.drivers := rfl

theorem wires_length_wire_update (s : World) (wi : Nat) :
    (wire_update s wi).wires.length = s.wires.length :=
  wires_length_setWire ..

theorem wireAt_wire_update_ne (s : World) (wi j : Nat) (h : wi ≠ j) :
    wireAt (wire_update s wi) j = wireAt s j := by
  unfold wire_update
  rw [wireAt_setWire]
  simp [h]

theorem wireAt_wire_update_self (s : World) (wi : Nat)
    (h : wi < s.wires.length) :
    wireAt (wire_update s wi) wi =
      applyResolve (wireAt s wi) (wireResolve (attachVals s (wireAt s wi))) := by
  unfold wire_update
  rw [wireAt_setWire]
  simp [h]

theorem flag_in_range (s : World) (wi : Nat)
    (h : (wireAt s wi).driver_changed = true) : wi < s.wires.length := by
  by_contra hlt
  rw [wireAt_out_of_range s wi (by omega)] at h
  simp [defaultWire] at h

theorem changed_in_range (s : World) (wi : Nat)
    (h : (wireAt s wi).changed = true) : wi < s.wires.length := by
  by_contra hlt
  rw [wireAt_out_of_range s wi (by omega)] at h
  simp [defaultWire] at h

theorem resolveWalk_cons (s : World) (log : List Nat) (a : Nat)
    (L : List Nat) :
    resolveWalk (s, log) (a :: L) =
      if (wireAt s a).driver_changed then
        resolveWalk (resolveStepState s a, log ++ [a]) L
      else resolveWalk (s, log) L := by
  unfold resolveWalk resolveStepState
  rw [List.foldl_cons]
  by_cases h : (wireAt s a).driver_changed <;> simp [h]

theorem resolveStepState_drivers (s : World) (a : Nat) :
    (resolveStepState s a).drivers = s.drivers := rfl

theorem resolveStepState_length (s : World) (a : Nat) :
    (resolveStepState s a).wires.length = s.wires.length := by
  unfold resolveStepState
  rw [wires_length_setWire, wires_length_wire_update]

theorem resolveStepState_ne (s : World) (a wi : Nat) (h : wi ≠ a) :
    wireAt (resolveStepState s a) wi = wireAt s wi := by
  unfold resolveStepState
  rw [wireAt_setWire, if_neg (fun hc => h hc.1.symm)]
  exact wireAt_wire_update_ne s a wi (fun hh => h hh.symm)

theorem resolveStepState_self (s : World) (a : Nat)
    (h : (wireAt s a).driver_changed = true) :
    wireAt (resolveStepState s a) a =
      { applyResolve (wireAt s a) (wireResolve (attachVals s (wireAt s a)))
        with driver_changed := false } := by
  have ha : a < s.wires.length := flag_in_range s a h
  unfold resolveStepState
  rw [wireAt_setWire,
    if_pos ⟨rfl, by rw [wires_length_wire_update]; exact ha⟩,
    wireAt_wire_update_self s a ha]

theorem resolveWalk_drivers (L : List Nat) (s : World) (log : List Nat) :
    (resolveWalk (s, log) L).1.drivers = s.drivers := by
  induction L generalizing s log with
  | nil => rfl
  | cons a L ih =>
    rw [resolveWalk_cons]
    by_cases h : (wireAt s a).driver_changed
    · rw [if_pos h, ih]
      rfl
    · rw [if_neg (by simp [h]), ih]

theorem resolveWalk_length (L : List Nat) (s : World) (log : List Nat) :
    (resolveWalk (s, log) L).1.wires.length = s.wires.length := by
  induction L generalizing s log with
  | nil => rfl
  | cons a L ih =>
    rw [resolveWalk_cons]
    by_cases h : (wireAt s a).driver_changed
    · rw [if_pos h, ih, resolveStepState_length]
    · rw [if_neg (by simp [h])]
      exact ih s log

theorem resolveWalk_flag (L : List Nat) (s : World) (log : List Nat)
    (wi : Nat) :
    (wireAt (resolveWalk (s, log) L).1 wi).driver_changed =
      ((wireAt s wi).driver_changed && !(decide (wi ∈ L))) := by
  induction L generalizing s log with
  | nil => simp [resolveWalk]
  | cons a L ih =>
    rw [resolveWalk_cons]
    by_cases h : (wireAt s a).driver_changed
    · rw [if_pos h, ih]
      by_cases hwa : wi = a
      · subst hwa
        rw [resolveStepState_self s wi h]
        simp [h]
      · rw [resolveStepState_ne s a wi hwa]
        simp [List.mem_cons, hwa]
    · rw [if_neg (by simp [h]), ih]
      by_cases hwa : wi = a
      · subst hwa
        have h' : (wireAt s wi).driver_changed = false := by
          simp only [Bool.not_eq_true] at h
          exact h
        simp [h']
      · simp [List.mem_cons, hwa]

theorem resolveWalk_count (L : List Nat) (s : World) (log : List Nat)
    (wi : Nat) :
    (resolveWalk (s, log) L).2.count wi =
      log.count wi +
        (if (wireAt s wi).driver_changed = true ∧ wi ∈ L then 1 else 0) := by
  induction L generalizing s log with
  | nil => simp [resolveWalk]
  | cons a L ih =>
    rw [resolveWalk_cons]
    by_cases h : (wireAt s a).driver_changed
    · rw [if_pos h, ih]
      by_cases hwa : wi = a
      · subst hwa
        rw [resolveStepState_self s wi h]
        simp [h, List.count_append, List.count_cons]
      · rw [resolveStepState_ne s a wi hwa]
        simp [List.count_append, List.count_cons, List.mem_cons, hwa,
          fun hh : a = wi => hwa hh.symm]
    · rw [if_neg (by simp [h]), ih]
      by_cases hwa : wi = a
      · subst hwa
        have h' : ¬ ((wireAt s wi).driver_changed = true) := h
        simp [h']
      · simp [List.mem_cons, hwa]

theorem resolveWalk_untouched (L : List Nat) (s : World) (log : List Nat)
    (wi : Nat) :
    ¬ ((wireAt s wi).driver_changed = true ∧ wi ∈ L) →
      wireAt (resolveWalk (s, log) L).1 wi = wireAt s wi := by
  induction L generalizing s log with
  | nil => intro _; rfl
  | cons a L ih =>
    intro h
    rw [resolveWalk_cons]
    by_cases ha : (wireAt s a).driver_changed
    · rw [if_pos ha]
      have hwa : wi ≠ a := by
        intro hh
        subst hh
        exact h ⟨ha, List.mem_cons_self wi L⟩
      have h' : ¬ ((wireAt (resolveStepState s a) wi).driver_changed = true ∧
          wi ∈ L) := by
        rw [resolveStepState_ne s a wi hwa]
        intro hc
        exact h ⟨hc.1, List.mem_cons_of_mem a hc.2⟩
      rw [ih _ _ h', resolveStepState_ne s a wi hwa]
    · rw [if_neg (by simp [ha])]
      apply ih
      intro hc
      exact h ⟨hc.1, List.mem_cons_of_mem a hc.2⟩

theorem resolveWalk_touched (L : List Nat) (s : World) (log : List Nat)
    (wi : Nat) :
    (wireAt s wi).driver_changed = true → wi ∈ L →
      wireAt (resolveWalk (s, log) L).1 wi =
        { applyResolve (wireAt s wi)
            (wireResolve (attachVals s (wireAt s wi))) with
          driver_changed := false } := by
  induction L generalizing s log with
  | nil => intro _ hm; cases hm
  | cons a L ih =>
    intro hf hm
    rw [resolveWalk_cons]
    by_cases ha : (wireAt s a).driver_changed
    · rw [if_pos ha]
      by_cases hwa : wi = a
      · subst hwa
        have hflag : ¬ ((wireAt (resolveStepState s wi) wi).driver_changed
            = true ∧ wi ∈ L) := by
          rw [resolveStepState_self s wi hf]
          simp
        rw [resolveWalk_untouched L _ _ wi hflag,
          resolveStepState_self s wi hf]
      · rcases List.mem_cons.mp hm with hh | hh
        · exact absurd hh hwa
        · have hf' : (wireAt (resolveStepState s a) wi).driver_changed
              = true := by
            rw [resolveStepState_ne s a wi hwa]
            exact hf
          rw [ih _ _ hf' hh, resolveStepState_ne s a wi hwa,
            attachVals_congr _ s _ (resolveStepState_drivers s a)]
    · rw [if_neg (by simp [ha])]
      by_cases hwa : wi = a
      · subst hwa
        exact absurd hf ha
      · rcases List.mem_cons.mp hm with hh | hh
        · exact absurd hh hwa
        · exact ih s log hf hh

theorem multi_drive_phase2_eq_aux (s : World) (ds : List QemuWireDrive) :
    multi_drive_phase2 s ds = phase2Aux (s, []) ds := rfl

theorem phase2Visits_congr (s₁ s₂ : World) (ds : List QemuWireDrive)
    (h : s₁.drivers = s₂.drivers) :
    phase2Visits s₁ ds = phase2Visits s₂ ds := by
  unfold phase2Visits driverAt
  rw [h]

theorem phase2Aux_cons (s : World) (log : List Nat) (wd : QemuWireDrive)
    (ds : List QemuWireDrive) :
    phase2Aux (s, log) (wd :: ds) =
      match wd.driver with
      | none => phase2Aux (s, log) ds
      | some di =>
        if (driverAt s di).changed then
          phase2Aux (resolveWalk (s, log) (driverAt s di).wires) ds
        else phase2Aux (s, log) ds := by
  unfold phase2Aux
  rw [List.foldl_cons]
  rcases hwd : wd.driver with _ | di <;> simp only [hwd]
  by_cases hd : (driverAt s di).changed = true <;> simp [hd]

theorem phase2Visits_cons (s : World) (wd : QemuWireDrive)
    (ds : List QemuWireDrive) :
    phase2Visits s (wd :: ds) =
      match wd.driver with
      | none => phase2Visits s ds
      | some di =>
        if (driverAt s di).changed then
          (driverAt s di).wires ++ phase2Visits s ds
        else phase2Visits s ds := rfl

theorem phase2Aux_drivers (ds : List QemuWireDrive) (s : World)
    (log : List Nat) : (phase2Aux (s, log) ds).1.drivers = s.drivers := by
  induction ds generalizing s log with
  | nil => rfl
  | cons wd ds ih =>
    rw [phase2Aux_cons]
    cases hwd : wd.driver with
    | none => exact ih s log
    | some di =>
      by_cases hd : (driverAt s di).changed
      · simp only [hd, if_true]
        rcases hrw : resolveWalk (s, log) (driverAt s di).wires
          with ⟨s₁, log₁⟩
        have hd₁ : s₁.drivers = s.drivers := by
          have := resolveWalk_drivers (driverAt s di).wires s log
          rw [hrw] at this
          exact this
        rw [ih s₁ log₁, hd₁]
      · simp only [hd, Bool.false_eq_true, if_false]
        exact ih s log

theorem phase2Aux_length (ds : List QemuWireDrive) (s : World)
    (log : List Nat) :
    (phase2Aux (s, log) ds).1.wires.length = s.wires.length := by
  induction ds generalizing s log with
  | nil => rfl
  | cons wd ds ih =>
    rw [phase2Aux_cons]
    cases hwd : wd.driver with
    | none => exact ih s log
    | some di =>
      by_cases hd : (driverAt s di).changed
      · simp only [hd, if_true]
        rcases hrw : resolveWalk (s, log) (driverAt s di).wires
          with ⟨s₁, log₁⟩
        have hl₁ : s₁.wires.length = s.wires.length := by
          have := resolveWalk_length (driverAt s di).wires s log
          rw [hrw] at this
          exact this
        rw [ih s₁ log₁, hl₁]
      · simp only [hd, Bool.false_eq_true, if_false]
        exact ih s log

theorem phase2Aux_flag (ds : List QemuWireDrive) (s : World)
    (log : List Nat) (wi : Nat) :
    (wireAt (phase2Aux (s, log) ds).1 wi).driver_changed =
      ((wireAt s wi).driver_changed &&
        !(decide (wi ∈ phase2Visits s ds))) := by
  induction ds generalizing s log with
  | nil => simp [phase2Aux, phase2Visits]
  | cons wd ds ih =>
    rw [phase2Aux_cons, phase2Visits_cons]
    rcases hwd : wd.driver with _ | di
    · exact ih s log
    · by_cases hd : (driverAt s di).changed
      · simp only [hd, if_true]
        rcases hrw : resolveWalk (s, log) (driverAt s di).wires
          with ⟨s₁, log₁⟩
        have hdrv : s₁.drivers = s.drivers := by
          have := resolveWalk_drivers (driverAt s di).wires s log
          rw [hrw] at this
          exact this
        have hflag := resolveWalk_flag (driverAt s di).wires s log wi
        rw [hrw] at hflag
        rw [ih s₁ log₁, hflag, phase2Visits_congr s₁ s ds hdrv]
        by_cases h1 : wi ∈ (driverAt s di).wires <;>
          by_cases h2 : wi ∈ phase2Visits s ds <;>
          simp [h1, h2, List.mem_append]
      · simp only [hd, Bool.false_eq_true, if_false]
        exact ih s log

theorem phase2Aux_count (ds : List QemuWireDrive) (s : World)
    (log : List Nat) (wi : Nat) :
    (phase2Aux (s, log) ds).2.count wi =
      log.count wi +
        (if (wireAt s wi).driver_changed = true ∧
            wi ∈ phase2Visits s ds then 1 else 0) := by
  induction ds generalizing s log with
  | nil => simp [phase2Aux, phase2Visits]
  | cons wd ds ih =>
    rw [phase2Aux_cons, phase2Visits_cons]
    rcases hwd : wd.driver with _ | di
    · exact ih s log
    · by_cases hd : (driverAt s di).changed
      · simp only [hd, if_true]
        rcases hrw : resolveWalk (s, log) (driverAt s di).wires
          with ⟨s₁, log₁⟩
        have hdrv : s₁.drivers = s.drivers := by
          have := resolveWalk_drivers (driverAt s di).wires s log
          rw [hrw] at this
          exact this
        have hflag := resolveWalk_flag (driverAt s di).wires s log wi
        rw [hrw] at hflag
        have hcnt := resolveWalk_count (driverAt s di).wires s log wi
        rw [hrw] at hcnt
        rw [ih s₁ log₁, hflag, hcnt, phase2Visits_congr s₁ s ds hdrv]
        by_cases hf : (wireAt s wi).driver_changed = true <;>
          by_cases h1 : wi ∈ (driverAt s di).wires <;>
          by_cases h2 : wi ∈ phase2Visits s ds <;>
          simp [hf, h1, h2, List.mem_append]
      · simp only [hd, Bool.false_eq_true, if_false]
        exact ih s log

theorem phase2Aux_untouched (ds : List QemuWireDrive) (s : World)
    (log : List Nat) (wi : Nat) :
    ¬ ((wireAt s wi).driver_changed = true ∧ wi ∈ phase2Visits s ds) →
      wireAt (phase2Aux (s, log) ds).1 wi = wireAt s wi := by
  induction ds generalizing s log with
  | nil => intro _; rfl
  | cons wd ds ih =>
    intro h
    rw [phase2Visits_cons] at h
    rw [phase2Aux_cons]
    rcases hwd : wd.driver with _ | di
    · exact ih s log (by simp only [hwd] at h; exact h)
    · simp only [hwd] at h
      by_cases hd : (driverAt s di).changed
      · simp only [hd, if_true] at h ⊢
        rcases hrw : resolveWalk (s, log) (driverAt s di).wires
          with ⟨s₁, log₁⟩
        have hdrv : s₁.drivers = s.drivers := by
          have := resolveWalk_drivers (driverAt s di).wires s log
          rw [hrw] at this
          exact this
        have hun := resolveWalk_untouched (driverAt s di).wires s log wi
          (by
            intro hc
            exact h ⟨hc.1, List.mem_append.mpr (Or.inl hc.2)⟩)
        rw [hrw] at hun
        have hflag := resolveWalk_flag (driverAt s di).wires s log wi
        rw [hrw] at hflag
        rw [ih s₁ log₁ ?_, hun]
        rw [hflag, phase2Visits_congr s₁ s ds hdrv]
        intro hc
        have hf : (wireAt s wi).driver_changed = true := by
          have := hc.1
          rw [Bool.and_eq_true] at this
          exact this.1
        exact h ⟨hf, List.mem_append.mpr (Or.inr hc.2)⟩
      · simp only [hd, Bool.false_eq_true, if_false] at h ⊢
        exact ih s log h

theorem phase2Aux_touched (ds : List QemuWireDrive) (s : World)
    (log : List Nat) (wi : Nat) :
    (wireAt s wi).driver_changed = true → wi ∈ phase2Visits s ds →
      wireAt (phase2Aux (s, log) ds).1 wi =
        { applyResolve (wireAt s wi)
            (wireResolve (attachVals s (wireAt s wi))) with
          driver_changed := false } := by
  induction ds generalizing s log with
  | nil =>
    intro _ hm
    simp [phase2Visits] at hm
  | cons wd ds ih =>
    intro hf hm
    rw [phase2Visits_cons] at hm
    rw [phase2Aux_cons]
    rcases hwd : wd.driver with _ | di
    · exact ih s log hf (by simp only [hwd] at hm; exact hm)
    · simp only [hwd] at hm
      by_cases hd : (driverAt s di).changed
      · simp only [hd, if_true] at hm ⊢
        rcases hrw : resolveWalk (s, log) (driverAt s di).wires
          with ⟨s₁, log₁⟩
        have hdrv : s₁.drivers = s.drivers := by
          have := resolveWalk_drivers (driverAt s di).wires s log
          rw [hrw] at this
          exact this
        rcases List.mem_append.mp hm with hm1 | hm2
        · have htc := resolveWalk_touched (driverAt s di).wires s log wi
            hf hm1
          rw [hrw] at htc
          rw [phase2Aux_untouched ds s₁ log₁ wi ?_, htc]
          rw [htc]
          simp
        · by_cases hm1 : wi ∈ (driverAt s di).wires
          · have htc := resolveWalk_touched (driverAt s di).wires s log wi
              hf hm1
            rw [hrw] at htc
            rw [phase2Aux_untouched ds s₁ log₁ wi ?_, htc]
            rw [htc]
            simp
          · have hun := resolveWalk_untouched (driverAt s di).wires s log wi
              (fun hc => hm1 hc.2)
            rw [hrw] at hun
            have hf₁ : (wireAt s₁ wi).driver_changed = true := by
              rw [hun]
              exact hf
            have hm₁ : wi ∈ phase2Visits s₁ ds := by
              rw [phase2Visits_congr s₁ s ds hdrv]
              exact hm2
            rw [ih s₁ log₁ hf₁ hm₁, hun,
              attachVals_congr s₁ s _ hdrv]
      · simp only [hd, Bool.false_eq_true, if_false] at hm ⊢
        exact ih s log hf hm

theorem setWire_out_of_range (s : World) (i : Nat) (w : Wire)
    (h : s.wires.length ≤ i) : setWire s i w = s := by
  unfold setWire
  rw [List.set_eq_of_length_le h]

theorem markWires_drivers (L : List Nat) (s : World) :
    (markWires s L).drivers = s.drivers := by
  induction L generalizing s with
  | nil => rfl
  | cons a L ih =>
    unfold markWires
    rw [List.foldl_cons]
    exact ih _

theorem markWires_length (L : List Nat) (s : World) :
    (markWires s L).wires.length = s.wires.length := by
  induction L generalizing s with
  | nil => rfl
  | cons a L ih =>
    unfold markWires
    rw [List.foldl_cons]
    show (markWires _ L).wires.length = _
    rw [ih, wires_length_setWire]

theorem wireAt_markWires (L : List Nat) (s : World) (wi : Nat) :
    wireAt (markWires s L) wi =
      if wi ∈ L ∧ wi < s.wires.length then
        { wireAt s wi with driver_changed := true }
      else wireAt s wi := by
  induction L generalizing s with
  | nil => simp [markWires]
  | cons a L ih =>
    unfold markWires
    rw [List.foldl_cons]
    show wireAt (markWires _ L) wi = _
    rw [ih, wireAt_setWire, wires_length_setWire]
    by_cases hwa : wi = a
    · subst hwa
      by_cases hlen : wi < s.wires.length
      · simp [hlen, List.mem_cons]
      · simp [hlen]
    · have hne : ¬ (a = wi ∧ a < s.wires.length) := fun hc => hwa hc.1.symm
      rw [if_neg hne]
      by_cases hm : wi ∈ L <;>
        by_cases hlen : wi < s.wires.length <;>
        simp [hm, hlen, List.mem_cons, hwa]

theorem markWires_flag_mono (L : List Nat) (s : World) (wi : Nat)
    (h : (wireAt s wi).driver_changed = true) :
    (wireAt (markWires s L) wi).driver_changed = true := by
  rw [wireAt_markWires]
  by_cases hc : wi ∈ L ∧ wi < s.wires.length
  · rw [if_pos hc]
  · rw [if_neg hc]
    exact h

theorem phase1Step_drivers_length (s : World) (wd : QemuWireDrive) :
    (phase1Step s wd).drivers.length = s.drivers.length := by
  unfold phase1Step
  rcases wd.driver with _ | di
  · rfl
  · dsimp only
    split
    · rfl
    · rw [markWires_drivers, drivers_length_setDriver]

theorem phase1Step_length (s : World) (wd : QemuWireDrive) :
    (phase1Step s wd).wires.length = s.wires.length := by
  unfold phase1Step
  rcases wd.driver with _ | di
  · rfl
  · dsimp only
    split
    · rfl
    · rw [markWires_length]
      rfl

theorem driverAt_markWires (L : List Nat) (s : World) (di : Nat) :
    driverAt (markWires s L) di = driverAt s di := by
  unfold driverAt
  rw [markWires_drivers]

theorem phase1Step_driver_wires (s : World) (wd : QemuWireDrive)
    (di : Nat) :
    (driverAt (phase1Step s wd) di).wires = (driverAt s di).wires := by
  unfold phase1Step
  rcases wd.driver with _ | dj
  · rfl
  · dsimp only
    split
    · rfl
    · rw [driverAt_markWires, driverAt_setDriver]
      split
      · next hc => rw [← hc.1]
      · rfl

theorem driverAt_out_of_range (s : World) (di : Nat)
    (h : s.drivers.length ≤ di) : driverAt s di = defaultDriver := by
  unfold driverAt
  rw [List.getD_eq_getElem?_getD, List.getElem?_eq_none (by omega)]
  rfl

theorem phase1Step_wire_preserved (s : World) (wd : QemuWireDrive)
    (wi : Nat) :
    (wireAt (phase1Step s wd) wi).changed = (wireAt s wi).changed ∧
    (wireAt (phase1Step s wd) wi).in_callback =
      (wireAt s wi).in_callback ∧
    (wireAt (phase1Step s wd) wi).attachments =
      (wireAt s wi).attachments ∧
    (wireAt (phase1Step s wd) wi).strength = (wireAt s wi).strength ∧
    (wireAt (phase1Step s wd) wi).mode = (wireAt s wi).mode ∧
    (wireAt (phase1Step s wd) wi).value = (wireAt s wi).value ∧
    (wireAt (phase1Step s wd) wi).is_conflict =
      (wireAt s wi).is_conflict ∧
    (wireAt (phase1Step s wd) wi).intrinsic = (wireAt s wi).intrinsic ∧
    (wireAt (phase1Step s wd) wi).listeners = (wireAt s wi).listeners := by
  unfold phase1Step
  rcases wd.driver with _ | di
  · exact ⟨rfl, rfl, rfl, rfl, rfl, rfl, rfl, rfl, rfl⟩
  · dsimp only
    split
    · exact ⟨rfl, rfl, rfl, rfl, rfl, rfl, rfl, rfl, rfl⟩
    · rw [wireAt_markWires]
      split <;> exact ⟨rfl, rfl, rfl, rfl, rfl, rfl, rfl, rfl, rfl⟩

theorem phase1Step_flag_mono (s : World) (wd : QemuWireDrive) (wi : Nat)
    (h : (wireAt s wi).driver_changed = true) :
    (wireAt (phase1Step s wd) wi).driver_changed = true := by
  unfold phase1Step
  rcases wd.driver with _ | di
  · exact h
  · dsimp only
    split
    · exact h
    · exact markWires_flag_mono _ _ wi h

theorem phase1Step_dirty_mono (s : World) (wd : QemuWireDrive) (di : Nat)
    (h : (driverAt s di).changed = true) :
    (driverAt (phase1Step s wd) di).changed = true := by
  unfold phase1Step
  rcases wd.driver with _ | dj
  · exact h
  · dsimp only
    split
    · exact h
    · rw [driverAt_markWires, driverAt_setDriver]
      split
      · rfl
      · exact h

theorem phase1Step_dirty_origin (s : World) (wd : QemuWireDrive)
    (di : Nat)
    (h : (driverAt (phase1Step s wd) di).changed = true) :
    (driverAt s di).changed = true ∨ wd.driver = some di := by
  unfold phase1Step at h
  rcases hwd : wd.driver with _ | dj <;> rw [hwd] at h
  · exact Or.inl h
  · dsimp only at h
    split at h
    · exact Or.inl h
    · rw [driverAt_markWires, driverAt_setDriver] at h
      split at h
      · next hc => exact Or.inr (by rw [hc.1])
      · exact Or.inl h

theorem phase1Step_flag_origin (s : World) (wd : QemuWireDrive)
    (wi : Nat)
    (h : (wireAt (phase1Step s wd) wi).driver_changed = true) :
    (wireAt s wi).driver_changed = true ∨
      ∃ di, wd.driver = some di ∧
        (driverAt (phase1Step s wd) di).changed = true ∧
        wi ∈ (driverAt s di).wires := by
  rcases hwd : wd.driver with _ | dj
  · left
    unfold phase1Step at h
    rw [hwd] at h
    exact h
  · have hstep : phase1Step s wd =
        if (driverAt s dj).strength = wd.strength % 8 ∧
            (driverAt s dj).mode = wd.mode ∧
            (driverAt s dj).value = wd.value then s
        else
          markWires (setDriver s dj
            { driverAt s dj with
              strength := wd.strength % 8
              mode := wd.mode
              value := wd.value
              changed := true }) (driverAt s dj).wires := by
      unfold phase1Step
      rw [hwd]
    rw [hstep] at h
    split at h
    · exact Or.inl h
    · rw [wireAt_markWires] at h
      split at h
      · next hc =>
        right
        refine ⟨dj, rfl, ?_, hc.1⟩
        rw [hstep]
        split
        · next heq =>
          next hne => exact absurd heq hne
        · rw [driverAt_markWires, driverAt_setDriver]
          have hdj : dj < s.drivers.length := by
            by_contra hout
            rw [driverAt_out_of_range s dj (by omega)] at hc
            simp [defaultDriver] at hc
          rw [if_pos ⟨rfl, hdj⟩]
      · exact Or.inl h

theorem phase1Step_marks (s : World) (wd : QemuWireDrive) (di wi : Nat)
    (h1 : (driverAt (phase1Step s wd) di).changed = true)
    (h2 : (driverAt s di).changed = false)
    (h3 : wi ∈ (driverAt s di).wires) (h4 : wi < s.wires.length) :
    (wireAt (phase1Step s wd) wi).driver_changed = true := by
  rcases hwd : wd.driver with _ | dj
  · unfold phase1Step at h1 ⊢
    rw [hwd] at h1 ⊢
    rw [h2] at h1
    cases h1
  · have hstep : phase1Step s wd =
        if (driverAt s dj).strength = wd.strength % 8 ∧
            (driverAt s dj).mode = wd.mode ∧
            (driverAt s dj).value = wd.value then s
        else
          markWires (setDriver s dj
            { driverAt s dj with
              strength := wd.strength % 8
              mode := wd.mode
              value := wd.value
              changed := true }) (driverAt s dj).wires := by
      unfold phase1Step
      rw [hwd]
    rw [hstep] at h1 ⊢
    split at h1
    · rw [h2] at h1
      cases h1
    · next hne =>
      rw [if_neg hne]
      rw [driverAt_markWires, driverAt_setDriver] at h1
      split at h1
      · next hc =>
        rw [wireAt_markWires]
        rw [if_pos ⟨by rw [hc.1]; exact h3, by
          rw [wires_setDriver]; exact h4⟩]
      · rw [h2] at h1
        cases h1

theorem phase1_cons (s : World) (wd : QemuWireDrive)
    (ds : List QemuWireDrive) :
    multi_drive_phase1 s (wd :: ds) =
      multi_drive_phase1 (phase1Step s wd) ds := rfl

theorem phase1_drivers_length (ds : List QemuWireDrive) (s : World) :
    (multi_drive_phase1 s ds).drivers.length = s.drivers.length := by
  induction ds generalizing s with
  | nil => rfl
  | cons wd ds ih =>
    rw [phase1_cons, ih, phase1Step_drivers_length]

theorem phase1_length (ds : List QemuWireDrive) (s : World) :
    (multi_drive_phase1 s ds).wires.length = s.wires.length := by
  induction ds generalizing s with
  | nil => rfl
  | cons wd ds ih =>
    rw [phase1_cons, ih, phase1Step_length]

theorem phase1_driver_wires (ds : List QemuWireDrive) (s : World)
    (di : Nat) :
    (driverAt (multi_drive_phase1 s ds) di).wires =
      (driverAt s di).wires := by
  induction ds generalizing s with
  | nil => rfl
  | cons wd ds ih =>
    rw [phase1_cons, ih, phase1Step_driver_wires]

theorem phase1_wire_preserved (ds : List QemuWireDrive) (s : World)
    (wi : Nat) :
    (wireAt (multi_drive_phase1 s ds) wi).changed =
      (wireAt s wi).changed ∧
    (wireAt (multi_drive_phase1 s ds) wi).in_callback =
      (wireAt s wi).in_callback ∧
    (wireAt (multi_drive_phase1 s ds) wi).attachments =
      (wireAt s wi).attachments ∧
    (wireAt (multi_drive_phase1 s ds) wi).strength =
      (wireAt s wi).strength ∧
    (wireAt (multi_drive_phase1 s ds) wi).mode = (wireAt s wi).mode ∧
    (wireAt (multi_drive_phase1 s ds) wi).value = (wireAt s wi).value ∧
    (wireAt (multi_drive_phase1 s ds) wi).is_conflict =
      (wireAt s wi).is_conflict ∧
    (wireAt (multi_drive_phase1 s ds) wi).intrinsic =
      (wireAt s wi).intrinsic ∧
    (wireAt (multi_drive_phase1 s ds) wi).listeners =
      (wireAt s wi).listeners := by
  induction ds generalizing s with
  | nil => exact ⟨rfl, rfl, rfl, rfl, rfl, rfl, rfl, rfl, rfl⟩
  | cons wd ds ih =>
    rw [phase1_cons]
    obtain ⟨a1, a2, a3, a4, a5, a6, a7, a8, a9⟩ := ih (phase1Step s wd)
    obtain ⟨b1, b2, b3, b4, b5, b6, b7, b8, b9⟩ :=
      phase1Step_wire_preserved s wd wi
    exact ⟨a1.trans b1, a2.trans b2, a3.trans b3, a4.trans b4,
      a5.trans b5, a6.trans b6, a7.trans b7, a8.trans b8, a9.trans b9⟩

theorem phase1_flag_mono (ds : List QemuWireDrive) (s : World) (wi : Nat)
    (h : (wireAt s wi).driver_changed = true) :
    (wireAt (multi_drive_phase1 s ds) wi).driver_changed = true := by
  induction ds generalizing s with
  | nil => exact h
  | cons wd ds ih =>
    rw [phase1_cons]
    exact ih _ (phase1Step_flag_mono s wd wi h)

theorem phase1_dirty_mono (ds : List QemuWireDrive) (s : World) (di : Nat)
    (h : (driverAt s di).changed = true) :
    (driverAt (multi_drive_phase1 s ds) di).changed = true := by
  induction ds generalizing s with
  | nil => exact h
  | cons wd ds ih =>
    rw [phase1_cons]
    exact ih _ (phase1Step_dirty_mono s wd di h)

theorem phase1_dirty_origin (ds : List QemuWireDrive) (s : World)
    (di : Nat)
    (h : (driverAt (multi_drive_phase1 s ds) di).changed = true) :
    (driverAt s di).changed = true ∨ ∃ wd ∈ ds, wd.driver = some di := by
  induction ds generalizing s with
  | nil => exact Or.inl h
  | cons wd ds ih =>
    rw [phase1_cons] at h
    rcases ih _ h with h1 | ⟨wd', hwd', hdrv⟩
    · rcases phase1Step_dirty_origin s wd di h1 with h2 | h2
      · exact Or.inl h2
      · exact Or.inr ⟨wd, List.mem_cons_self wd ds, h2⟩
    · exact Or.inr ⟨wd', List.mem_cons_of_mem wd hwd', hdrv⟩

theorem phase1_flag_origin (ds : List QemuWireDrive) (s : World)
    (wi : Nat)
    (h : (wireAt (multi_drive_phase1 s ds) wi).driver_changed = true) :
    (wireAt s wi).driver_changed = true ∨
      ∃ di, (driverAt (multi_drive_phase1 s ds) di).changed = true ∧
        wi ∈ (driverAt s di).wires := by
  induction ds generalizing s with
  | nil => exact Or.inl h
  | cons wd ds ih =>
    rw [phase1_cons] at h ⊢
    rcases ih _ h with h1 | ⟨di, hdi, hmem⟩
    · rcases phase1Step_flag_origin s wd wi h1 with h2 | ⟨di, hwd, hdi, hm⟩
      · exact Or.inl h2
      · exact Or.inr ⟨di, phase1_dirty_mono ds _ di hdi, hm⟩
    · exact Or.inr ⟨di, hdi,
        by rw [← phase1Step_driver_wires s wd di]; exact hmem⟩

theorem phase1_marked (ds : List QemuWireDrive) (s : World) (di wi : Nat)
    (h1 : (driverAt (multi_drive_phase1 s ds) di).changed = true)
    (h2 : (driverAt s di).changed = false)
    (h3 : wi ∈ (driverAt s di).wires) (h4 : wi < s.wires.length) :
    (wireAt (multi_drive_phase1 s ds) wi).driver_changed = true := by
  induction ds generalizing s with
  | nil =>
    rw [show multi_drive_phase1 s [] = s from rfl] at h1
    rw [h2] at h1
    cases h1
  | cons wd ds ih =>
    rw [phase1_cons] at h1 ⊢
    cases hstep : (driverAt (phase1Step s wd) di).changed with
    | true =>
      have hflag := phase1Step_marks s wd di wi hstep h2 h3 h4
      exact phase1_flag_mono ds _ wi hflag
    | false =>
      exact ih _ h1 hstep
        (by rw [phase1Step_driver_wires]; exact h3)
        (by rw [phase1Step_length]; exact h4)

theorem setWire_setWire (s : World) (i : Nat) (w1 w2 : Wire) :
    setWire (setWire s i w1) i w2 = setWire s i w2 := by
  unfold setWire
  rw [List.set_set]

theorem notify_changed_false (s : World) (a : Nat) (log : List Nat)
    (h : (wireAt s a).changed = false) :
    wire_notify_if_changed s a log = (s, log) := by
  unfold wire_notify_if_changed
  rw [if_neg (by simp [h])]

theorem notify_changed_true (s : World) (a : Nat) (log : List Nat)
    (h : (wireAt s a).changed = true) :
    wire_notify_if_changed s a log =
      (setWire s a (notifiedWire (wireAt s a)), log ++ [a]) := by
  have ha := changed_in_range s a h
  unfold wire_notify_if_changed wire_call_listeners notifiedWire
  rw [if_pos h]
  dsimp only
  rw [wireAt_setWire, if_pos ⟨rfl, ha⟩, setWire_setWire]

theorem notifyWalk_cons (s : World) (log : List Nat) (a : Nat)
    (L : List Nat) :
    notifyWalk (s, log) (a :: L) =
      if (wireAt s a).changed then
        notifyWalk (setWire s a (notifiedWire (wireAt s a)),
          log ++ [a]) L
      else notifyWalk (s, log) L := by
  unfold notifyWalk
  rw [List.foldl_cons]
  by_cases h : (wireAt s a).changed
  · rw [if_pos h]
    have := notify_changed_true s a log h
    unfold wire_notify_if_changed wire_call_listeners at this ⊢
    rw [this]
  · rw [if_neg (by simp [h])]
    have := notify_changed_false s a log
      (by simp only [Bool.not_eq_true] at h; exact h)
    unfold wire_notify_if_changed at this ⊢
    rw [this]

theorem notifyWalk_drivers (L : List Nat) (s : World) (log : List Nat) :
    (notifyWalk (s, log) L).1.drivers = s.drivers := by
  induction L generalizing s log with
  | nil => rfl
  | cons a L ih =>
    rw [notifyWalk_cons]
    by_cases h : (wireAt s a).changed
    · rw [if_pos h, ih]
      rfl
    · rw [if_neg (by simp [h])]
      exact ih s log

theorem notifyWalk_length (L : List Nat) (s : World) (log : List Nat) :
    (notifyWalk (s, log) L).1.wires.length = s.wires.length := by
  induction L generalizing s log with
  | nil => rfl
  | cons a L ih =>
    rw [notifyWalk_cons]
    by_cases h : (wireAt s a).changed
    · rw [if_pos h, ih, wires_length_setWire]
    · rw [if_neg (by simp [h])]
      exact ih s log

theorem notifyStep_ne (s : World) (a wi : Nat) (hwa : wi ≠ a) :
    wireAt (setWire s a (notifiedWire (wireAt s a))) wi = wireAt s wi := by
  rw [wireAt_setWire, if_neg (fun hc => hwa hc.1.symm)]

theorem notifyStep_self (s : World) (a : Nat)
    (h : (wireAt s a).changed = true) :
    wireAt (setWire s a (notifiedWire (wireAt s a))) a =
      notifiedWire (wireAt s a) := by
  rw [wireAt_setWire, if_pos ⟨rfl, changed_in_range s a h⟩]

theorem notifyWalk_changed (L : List Nat) (s : World) (log : List Nat)
    (wi : Nat) :
    (wireAt (notifyWalk (s, log) L).1 wi).changed =
      ((wireAt s wi).changed && !(decide (wi ∈ L))) := by
  induction L generalizing s log with
  | nil => simp [notifyWalk]
  | cons a L ih =>
    rw [notifyWalk_cons]
    by_cases h : (wireAt s a).changed
    · rw [if_pos h, ih]
      by_cases hwa : wi = a
      · subst hwa
        rw [notifyStep_self s wi h]
        simp [notifiedWire]
      · rw [notifyStep_ne s a wi hwa]
        simp [List.mem_cons, hwa]
    · rw [if_neg (by simp [h]), ih]
      by_cases hwa : wi = a
      · subst hwa
        have h' : (wireAt s wi).changed = false := by
          simp only [Bool.not_eq_true] at h
          exact h
        simp [h']
      · simp [List.mem_cons, hwa]

theorem notifyWalk_count (L : List Nat) (s : World) (log : List Nat)
    (wi : Nat) :
    (notifyWalk (s, log) L).2.count wi =
      log.count wi +
        (if (wireAt s wi).changed = true ∧ wi ∈ L then 1 else 0) := by
  induction L generalizing s log with
  | nil => simp [notifyWalk]
  | cons a L ih =>
    rw [notifyWalk_cons]
    by_cases h : (wireAt s a).changed
    · rw [if_pos h, ih]
      by_cases hwa : wi = a
      · subst hwa
        rw [notifyStep_self s wi h]
        simp [h, notifiedWire, List.count_append, List.count_cons]
      · rw [notifyStep_ne s a wi hwa]
        simp [List.count_append, List.count_cons, List.mem_cons, hwa,
          fun hh : a = wi => hwa hh.symm]
    · rw [if_neg (by simp [h]), ih]
      by_cases hwa : wi = a
      · subst hwa
        have h' : ¬ ((wireAt s wi).changed = true) := h
        simp [h']
      · simp [List.mem_cons, hwa]

theorem notifyWalk_untouched (L : List Nat) (s : World) (log : List Nat)
    (wi : Nat) :
    ¬ ((wireAt s wi).changed = true ∧ wi ∈ L) →
      wireAt (notifyWalk (s, log) L).1 wi = wireAt s wi := by
  induction L generalizing s log with
  | nil => intro _; rfl
  | cons a L ih =>
    intro h
    rw [notifyWalk_cons]
    by_cases ha : (wireAt s a).changed
    · rw [if_pos ha]
      have hwa : wi ≠ a := by
        intro hh
        subst hh
        exact h ⟨ha, List.mem_cons_self wi L⟩
      have h' : ¬ ((wireAt (setWire s a (notifiedWire (wireAt s a)))
          wi).changed = true ∧ wi ∈ L) := by
        rw [notifyStep_ne s a wi hwa]
        intro hc
        exact h ⟨hc.1, List.mem_cons_of_mem a hc.2⟩
      rw [ih _ _ h', notifyStep_ne s a wi hwa]
    · rw [if_neg (by simp [ha])]
      apply ih
      intro hc
      exact h ⟨hc.1, List.mem_cons_of_mem a hc.2⟩

theorem notifyWalk_touched (L : List Nat) (s : World) (log : List Nat)
    (wi : Nat) :
    (wireAt s wi).changed = true → wi ∈ L →
      wireAt (notifyWalk (s, log) L).1 wi =
        notifiedWire (wireAt s wi) := by
  induction L generalizing s log with
  | nil => intro _ hm; cases hm
  | cons a L ih =>
    intro hf hm
    rw [notifyWalk_cons]
    by_cases ha : (wireAt s a).changed
    · rw [if_pos ha]
      by_cases hwa : wi = a
      · subst hwa
        have h' : ¬ ((wireAt (setWire s wi (notifiedWire (wireAt s wi)))
            wi).changed = true ∧ wi ∈ L) := by
          rw [notifyStep_self s wi hf]
          simp [notifiedWire]
        rw [notifyWalk_untouched L _ _ wi h', notifyStep_self s wi hf]
      · rcases List.mem_cons.mp hm with hh | hh
        · exact absurd hh hwa
        · have hf' : (wireAt (setWire s a (notifiedWire (wireAt s a)))
              wi).changed = true := by
            rw [notifyStep_ne s a wi hwa]
            exact hf
          rw [ih _ _ hf' hh, notifyStep_ne s a wi hwa]
    · rw [if_neg (by simp [ha])]
      by_cases hwa : wi = a
      · subst hwa
        exact absurd hf ha
      · rcases List.mem_cons.mp hm with hh | hh
        · exact absurd hh hwa
        · exact ih s log hf hh

theorem phase3_cons (s : World) (log : List Nat) (wd : QemuWireDrive)
    (ds : List QemuWireDrive) :
    multi_drive_phase3 s (wd :: ds) log =
      match wd.driver with
      | none => multi_drive_phase3 s ds log
      | some di =>
        if (driverAt s di).changed then
          multi_drive_phase3
            (notifyWalk (setDriver s di (clearedDriver (driverAt s di)),
              log) (driverAt s di).wires).1 ds
            (notifyWalk (setDriver s di (clearedDriver (driverAt s di)),
              log) (driverAt s di).wires).2
        else multi_drive_phase3 s ds log := by
  unfold multi_drive_phase3 clearedDriver
  rw [List.foldl_cons]
  rcases hwd : wd.driver with _ | di <;> simp only [hwd]
  by_cases hd : (driverAt s di).changed = true <;> simp [hd]

theorem phase3Visits_nil (s : World) : phase3Visits s [] = [] := rfl

theorem phase3Visits_cons_none (s : World) (wd : QemuWireDrive)
    (ds : List QemuWireDrive) (h : wd.driver = none) :
    phase3Visits s (wd :: ds) = phase3Visits s ds := by
  simp only [phase3Visits, h]

theorem phase3Visits_cons_some (s : World) (wd : QemuWireDrive)
    (ds : List QemuWireDrive) (di : Nat) (h : wd.driver = some di) :
    phase3Visits s (wd :: ds) =
      if (driverAt s di).changed then
        (driverAt s di).wires ++
          phase3Visits (setDriver s di (clearedDriver (driverAt s di))) ds
      else phase3Visits s ds := by
  simp only [phase3Visits, h]

theorem phase3Visits_congr (ds : List QemuWireDrive) (s₁ s₂ : World)
    (h : s₁.drivers = s₂.drivers) :
    phase3Visits s₁ ds = phase3Visits s₂ ds := by
  induction ds generalizing s₁ s₂ with
  | nil => rfl
  | cons wd ds ih =>
    rcases hwd : wd.driver with _ | di
    · rw [phase3Visits_cons_none s₁ wd ds hwd,
        phase3Visits_cons_none s₂ wd ds hwd]
      exact ih s₁ s₂ h
    · rw [phase3Visits_cons_some s₁ wd ds di hwd,
        phase3Visits_cons_some s₂ wd ds di hwd]
      have hdd : driverAt s₁ di = driverAt s₂ di := by
        unfold driverAt
        rw [h]
      rw [hdd]
      by_cases hd : (driverAt s₂ di).changed = true
      · simp only [hd, if_true]
        rw [ih (setDriver s₁ di (clearedDriver (driverAt s₂ di)))
          (setDriver s₂ di (clearedDriver (driverAt s₂ di)))
          (by unfold setDriver; simp only; rw [h])]
      · simp only [hd, Bool.false_eq_true, if_false]
        exact ih s₁ s₂ h

theorem phase3_length (ds : List QemuWireDrive) (s : World)
    (log : List Nat) :
    (multi_drive_phase3 s ds log).1.wires.length = s.wires.length := by
  induction ds generalizing s log with
  | nil => rfl
  | cons wd ds ih =>
    rw [phase3_cons]
    rcases hwd : wd.driver with _ | di
    · exact ih s log
    · by_cases hd : (driverAt s di).changed
      · simp only [hd, if_true]
        rw [ih, notifyWalk_length]
        rfl
      · simp only [hd, Bool.false_eq_true, if_false]
        exact ih s log

theorem listed_cons_ne {wd : QemuWireDrive} {ds : List QemuWireDrive}
    {di : Nat} (h : wd.driver ≠ some di) :
    (∃ wd' ∈ wd :: ds, wd'.driver = some di) ↔
      (∃ wd' ∈ ds, wd'.driver = some di) := by
  constructor
  · rintro ⟨wd', hm, hdrv⟩
    rcases List.mem_cons.mp hm with hh | hh
    · subst hh
      exact absurd hdrv h
    · exact ⟨wd', hh, hdrv⟩
  · rintro ⟨wd', hm, hdrv⟩
    exact ⟨wd', List.mem_cons_of_mem wd hm, hdrv⟩

theorem driverAt_congr {s₁ s₂ : World} (h : s₁.drivers = s₂.drivers)
    (k : Nat) : driverAt s₁ k = driverAt s₂ k :=
  congrArg (fun l => List.getD l k defaultDriver) h

theorem wireAt_congr {s₁ s₂ : World} (h : s₁.wires = s₂.wires)
    (k : Nat) : wireAt s₁ k = wireAt s₂ k :=
  congrArg (fun l => List.getD l k defaultWire) h

theorem phase3_driver (ds : List QemuWireDrive) (s : World)
    (log : List Nat) (di : Nat) :
    driverAt (multi_drive_phase3 s ds log).1 di =
      if (driverAt s di).changed = true ∧
          (∃ wd ∈ ds, wd.driver = some di) then
        clearedDriver (driverAt s di)
      else driverAt s di := by
  induction ds generalizing s log with
  | nil => simp [multi_drive_phase3]
  | cons wd ds ih =>
    rw [phase3_cons]
    rcases hwd : wd.driver with _ | dj
    · rw [ih s log]
      have hne : wd.driver ≠ some di := by rw [hwd]; simp
      by_cases hc : (driverAt s di).changed = true ∧
          (∃ wd' ∈ ds, wd'.driver = some di)
      · rw [if_pos hc, if_pos ⟨hc.1, (listed_cons_ne hne).mpr hc.2⟩]
      · rw [if_neg hc, if_neg (fun hcc =>
          hc ⟨hcc.1, (listed_cons_ne hne).mp hcc.2⟩)]
    · by_cases hd : (driverAt s dj).changed
      · simp only [hd, if_true]
        have hdjr : dj < s.drivers.length := by
          by_contra hout
          rw [driverAt_out_of_range s dj (by omega)] at hd
          simp [defaultDriver] at hd
        have hda := driverAt_congr (notifyWalk_drivers
          (driverAt s dj).wires
          (setDriver s dj (clearedDriver (driverAt s dj))) log) di
        rw [ih, hda, driverAt_setDriver]
        by_cases hij : dj = di
        · subst hij
          have hif : (if dj = dj ∧ dj < s.drivers.length then
              clearedDriver (driverAt s dj) else driverAt s dj) =
              clearedDriver (driverAt s dj) := if_pos ⟨rfl, hdjr⟩
          rw [hif, if_neg (by simp [clearedDriver]),
            if_pos ⟨hd, ⟨wd, List.mem_cons_self wd ds, hwd⟩⟩]
        · have hif : (if dj = di ∧ dj < s.drivers.length then
              clearedDriver (driverAt s dj) else driverAt s di) =
              driverAt s di := if_neg (fun hc => hij hc.1)
          rw [hif]
          have hne : wd.driver ≠ some di := by
            rw [hwd]
            simp [hij]
          by_cases hc : (driverAt s di).changed = true ∧
              (∃ wd' ∈ ds, wd'.driver = some di)
          · rw [if_pos hc, if_pos ⟨hc.1, (listed_cons_ne hne).mpr hc.2⟩]
          · rw [if_neg hc, if_neg (fun hcc =>
              hc ⟨hcc.1, (listed_cons_ne hne).mp hcc.2⟩)]
      · simp only [hd, Bool.false_eq_true, if_false]
        rw [ih s log]
        by_cases hij : dj = di
        · subst hij
          have hdf : ¬ ((driverAt s dj).changed = true) := hd
          rw [if_neg (fun hc => hdf hc.1), if_neg (fun hc => hdf hc.1)]
        · have hne : wd.driver ≠ some di := by
            rw [hwd]
            simp [hij]
          by_cases hc : (driverAt s di).changed = true ∧
              (∃ wd' ∈ ds, wd'.driver = some di)
          · rw [if_pos hc, if_pos ⟨hc.1, (listed_cons_ne hne).mpr hc.2⟩]
          · rw [if_neg hc, if_neg (fun hcc =>
              hc ⟨hcc.1, (listed_cons_ne hne).mp hcc.2⟩)]

theorem phase3_changed (ds : List QemuWireDrive) (s : World)
    (log : List Nat) (wi : Nat) :
    (wireAt (multi_drive_phase3 s ds log).1 wi).changed =
      ((wireAt s wi).changed && !(decide (wi ∈ phase3Visits s ds))) := by
  induction ds generalizing s log with
  | nil => simp [multi_drive_phase3, phase3Visits_nil]
  | cons wd ds ih =>
    rw [phase3_cons]
    rcases hwd : wd.driver with _ | dj
    · rw [phase3Visits_cons_none s wd ds hwd]
      exact ih s log
    · rw [phase3Visits_cons_some s wd ds dj hwd]
      by_cases hd : (driverAt s dj).changed
      · simp only [hd, if_true]
        rw [ih]
        have hch := notifyWalk_changed (driverAt s dj).wires
          (setDriver s dj (clearedDriver (driverAt s dj))) log wi
        rw [hch, phase3Visits_congr ds _ _ (notifyWalk_drivers _ _ _)]
        rw [show wireAt (setDriver s dj (clearedDriver (driverAt s dj)))
          wi = wireAt s wi from rfl]
        by_cases h1 : wi ∈ (driverAt s dj).wires <;>
          by_cases h2 : wi ∈ phase3Visits
            (setDriver s dj (clearedDriver (driverAt s dj))) ds <;>
          simp [h1, h2, List.mem_append]
      · simp only [hd, Bool.false_eq_true, if_false]
        exact ih s log

theorem phase3_count (ds : List QemuWireDrive) (s : World)
    (log : List Nat) (wi : Nat) :
    (multi_drive_phase3 s ds log).2.count wi =
      log.count wi +
        (if (wireAt s wi).changed = true ∧
            wi ∈ phase3Visits s ds then 1 else 0) := by
  induction ds generalizing s log with
  | nil => simp [multi_drive_phase3, phase3Visits_nil]
  | cons wd ds ih =>
    rw [phase3_cons]
    rcases hwd : wd.driver with _ | dj
    · rw [phase3Visits_cons_none s wd ds hwd]
      exact ih s log
    · rw [phase3Visits_cons_some s wd ds dj hwd]
      by_cases hd : (driverAt s dj).changed
      · simp only [hd, if_true]
        rw [ih]
        have hch := notifyWalk_changed (driverAt s dj).wires
          (setDriver s dj (clearedDriver (driverAt s dj))) log wi
        have hcnt := notifyWalk_count (driverAt s dj).wires
          (setDriver s dj (clearedDriver (driverAt s dj))) log wi
        rw [hch, hcnt, phase3Visits_congr ds _ _ (notifyWalk_drivers _ _ _)]
        rw [show wireAt (setDriver s dj (clearedDriver (driverAt s dj)))
          wi = wireAt s wi from rfl]
        by_cases hf : (wireAt s wi).changed = true <;>
          by_cases h1 : wi ∈ (driverAt s dj).wires <;>
          by_cases h2 : wi ∈ phase3Visits
            (setDriver s dj (clearedDriver (driverAt s dj))) ds <;>
          simp [hf, h1, h2, List.mem_append]
      · simp only [hd, Bool.false_eq_true, if_false]
        exact ih s log

theorem phase3_untouched (ds : List QemuWireDrive) (s : World)
    (log : List Nat) (wi : Nat) :
    ¬ ((wireAt s wi).changed = true ∧ wi ∈ phase3Visits s ds) →
      wireAt (multi_drive_phase3 s ds log).1 wi = wireAt s wi := by
  induction ds generalizing s log with
  | nil => intro _; rfl
  | cons wd ds ih =>
    intro h
    rw [phase3_cons]
    rcases hwd : wd.driver with _ | dj
    · rw [phase3Visits_cons_none s wd ds hwd] at h
      exact ih s log h
    · rw [phase3Visits_cons_some s wd ds dj hwd] at h
      by_cases hd : (driverAt s dj).changed
      · simp only [hd, if_true] at h ⊢
        have hun := notifyWalk_untouched (driverAt s dj).wires
          (setDriver s dj (clearedDriver (driverAt s dj))) log wi
          (by
            rw [show wireAt (setDriver s dj
              (clearedDriver (driverAt s dj))) wi = wireAt s wi from rfl]
            intro hc
            exact h ⟨hc.1, List.mem_append.mpr (Or.inl hc.2)⟩)
        rw [ih _ _ ?_, hun]
        · rfl
        · have hch := notifyWalk_changed (driverAt s dj).wires
            (setDriver s dj (clearedDriver (driverAt s dj))) log wi
          rw [hch, phase3Visits_congr ds _ _ (notifyWalk_drivers _ _ _)]
          rw [show wireAt (setDriver s dj (clearedDriver (driverAt s dj)))
            wi = wireAt s wi from rfl]
          intro hc
          have hf : (wireAt s wi).changed = true := by
            have := hc.1
            rw [Bool.and_eq_true] at this
            exact this.1
          exact h ⟨hf, List.mem_append.mpr (Or.inr hc.2)⟩
      · simp only [hd, Bool.false_eq_true, if_false] at h ⊢
        exact ih s log h

theorem phase3_touched (ds : List QemuWireDrive) (s : World)
    (log : List Nat) (wi : Nat) :
    (wireAt s wi).changed = true → wi ∈ phase3Visits s ds →
      wireAt (multi_drive_phase3 s ds log).1 wi =
        notifiedWire (wireAt s wi) := by
  induction ds generalizing s log with
  | nil =>
    intro _ hm
    rw [phase3Visits_nil] at hm
    cases hm
  | cons wd ds ih =>
    intro hf hm
    rw [phase3_cons]
    rcases hwd : wd.driver with _ | dj
    · rw [phase3Visits_cons_none s wd ds hwd] at hm
      exact ih s log hf hm
    · rw [phase3Visits_cons_some s wd ds dj hwd] at hm
      by_cases hd : (driverAt s dj).changed
      · simp only [hd, if_true] at hm ⊢
        have hfs : (wireAt (setDriver s dj
            (clearedDriver (driverAt s dj))) wi).changed = true := hf
        by_cases h1 : wi ∈ (driverAt s dj).wires
        · have htc := notifyWalk_touched (driverAt s dj).wires
            (setDriver s dj (clearedDriver (driverAt s dj))) log wi hfs h1
          rw [phase3_untouched ds _ _ wi ?_, htc]
          · rfl
          · rw [htc]
            simp [notifiedWire]
        · rcases List.mem_append.mp hm with hm1 | hm2
          · exact absurd hm1 h1
          · have hun := notifyWalk_untouched (driverAt s dj).wires
              (setDriver s dj (clearedDriver (driverAt s dj))) log wi
              (fun hc => h1 hc.2)
            have hf₁ : (wireAt (notifyWalk (setDriver s dj
                (clearedDriver (driverAt s dj)), log)
                (driverAt s dj).wires).1 wi).changed = true := by
              rw [hun]
              exact hfs
            have hm₁ : wi ∈ phase3Visits (notifyWalk (setDriver s dj
                (clearedDriver (driverAt s dj)), log)
                (driverAt s dj).wires).1 ds := by
              rw [phase3Visits_congr ds _ _ (notifyWalk_drivers _ _ _)]
              exact hm2
            rw [ih _ _ hf₁ hm₁, hun]
            rfl
      · simp only [hd, Bool.false_eq_true, if_false] at hm ⊢
        exact ih s log hf hm

theorem phase2Visits_cons_none (s : World) (wd : QemuWireDrive)
    (ds : List QemuWireDrive) (h : wd.driver = none) :
    phase2Visits s (wd :: ds) = phase2Visits s ds := by
  simp only [phase2Visits, List.foldr_cons, h]

theorem phase2Visits_cons_some (s : World) (wd : QemuWireDrive)
    (ds : List QemuWireDrive) (di : Nat) (h : wd.driver = some di) :
    phase2Visits s (wd :: ds) =
      if (driverAt s di).changed then
        (driverAt s di).wires ++ phase2Visits s ds
      else phase2Visits s ds := by
  simp only [phase2Visits, List.foldr_cons, h]

theorem mem_phase2Visits (ds : List QemuWireDrive) (s : World)
    {wd : QemuWireDrive} {di wi : Nat} (hm : wd ∈ ds)
    (hdrv : wd.driver = some di)
    (hd : (driverAt s di).changed = true)
    (hwi : wi ∈ (driverAt s di).wires) : wi ∈ phase2Visits s ds := by
  induction ds with
  | nil => cases hm
  | cons wd' ds ih =>
    rcases List.mem_cons.mp hm with hh | hh
    · subst hh
      rw [phase2Visits_cons_some s wd ds di hdrv, if_pos hd]
      exact List.mem_append.mpr (Or.inl hwi)
    · rcases hwd' : wd'.driver with _ | dj
      · rw [phase2Visits_cons_none s wd' ds hwd']
        exact ih hh
      · rw [phase2Visits_cons_some s wd' ds dj hwd']
        by_cases hdj : (driverAt s dj).changed
        · rw [if_pos hdj]
          exact List.mem_append.mpr (Or.inr (ih hh))
        · rw [if_neg (by simp [hdj])]
          exact ih hh

theorem mem_phase3Visits (ds : List QemuWireDrive) (s : World)
    {di wi : Nat} (h : ∃ wd ∈ ds, wd.driver = some di)
    (hd : (driverAt s di).changed = true)
    (hwi : wi ∈ (driverAt s di).wires) : wi ∈ phase3Visits s ds := by
  induction ds generalizing s with
  | nil =>
    obtain ⟨wd, hm, _⟩ := h
    cases hm
  | cons wd' ds ih =>
    obtain ⟨wd, hm, hdrv⟩ := h
    rcases List.mem_cons.mp hm with hh | hh
    · subst hh
      rw [phase3Visits_cons_some s wd ds di hdrv, if_pos hd]
      exact List.mem_append.mpr (Or.inl hwi)
    · rcases hwd' : wd'.driver with _ | dj
      · rw [phase3Visits_cons_none s wd' ds hwd']
        exact ih s ⟨wd, hh, hdrv⟩ hd hwi
      · rw [phase3Visits_cons_some s wd' ds dj hwd']
        by_cases hdj : (driverAt s dj).changed
        · rw [if_pos hdj]
          by_cases hij : dj = di
          · subst hij
            exact List.mem_append.mpr (Or.inl hwi)
          · refine List.mem_append.mpr (Or.inr (ih _ ⟨wd, hh, hdrv⟩ ?_ ?_))
            · rw [driverAt_setDriver, if_neg (fun hc => hij hc.1)]
              exact hd
            · rw [driverAt_setDriver, if_neg (fun hc => hij hc.1)]
              exact hwi
        · rw [if_neg (by simp [hdj])]
          exact ih s ⟨wd, hh, hdrv⟩ hd hwi

theorem flagsClear_wire {s : World} (hc : flagsClear s) (wi : Nat) :
    (wireAt s wi).changed = false ∧ (wireAt s wi).in_callback = false ∧
    (wireAt s wi).driver_changed = false := by
  by_cases h : wi < s.wires.length
  · have : wireAt s wi ∈ s.wires := by
      unfold wireAt
      rw [List.getD_eq_getElem s.wires defaultWire h]
      exact List.getElem_mem h
    exact hc.1 _ this
  · rw [wireAt_out_of_range s wi (by omega)]
    exact ⟨rfl, rfl, rfl⟩

theorem flagsClear_driver {s : World} (hc : flagsClear s) (di : Nat) :
    (driverAt s di).changed = false := by
  by_cases h : di < s.drivers.length
  · have : driverAt s di ∈ s.drivers := by
      unfold driverAt
      rw [List.getD_eq_getElem s.drivers defaultDriver h]
      exact List.getElem_mem h
    exact hc.2 _ this
  · rw [driverAt_out_of_range s di (by omega)]
    rfl

theorem flagsClear_of_pointwise (s : World)
    (hw : ∀ wi, (wireAt s wi).changed = false ∧
      (wireAt s wi).in_callback = false ∧
      (wireAt s wi).driver_changed = false)
    (hd : ∀ di, (driverAt s di).changed = false) : flagsClear s := by
  constructor
  · intro w hmem
    obtain ⟨i, hi, hei⟩ := List.mem_iff_getElem.mp hmem
    have : wireAt s i = w := by
      unfold wireAt
      rw [List.getD_eq_getElem s.wires defaultWire hi, hei]
    rw [← this]
    exact hw i
  · intro d hmem
    obtain ⟨i, hi, hei⟩ := List.mem_iff_getElem.mp hmem
    have : driverAt s i = d := by
      unfold driverAt
      rw [List.getD_eq_getElem s.drivers defaultDriver hi, hei]
    rw [← this]
    exact hd i

theorem marked_mem_visits2 (s : World) (ds : List QemuWireDrive)
    (hclear : flagsClear s) (wi : Nat)
    (hf : (wireAt (multi_drive_phase1 s ds) wi).driver_changed = true) :
    wi ∈ phase2Visits (multi_drive_phase1 s ds) ds := by
  rcases phase1_flag_origin ds s wi hf with h0 | ⟨di, hdi, hmem⟩
  · rw [(flagsClear_wire hclear wi).2.2] at h0
    cases h0
  · rcases phase1_dirty_origin ds s di hdi with h0 | ⟨wd, hwd, hdrv⟩
    · rw [flagsClear_driver hclear di] at h0
      cases h0
    · exact mem_phase2Visits ds _ hwd hdrv hdi
        (by rw [phase1_driver_wires]; exact hmem)

theorem marked_mem_visits3 (s : World) (ds : List QemuWireDrive)
    (hclear : flagsClear s) (wi : Nat)
    (hf : (wireAt (multi_drive_phase1 s ds) wi).driver_changed = true) :
    wi ∈ phase3Visits (multi_drive_phase2 (multi_drive_phase1 s ds)
      ds).1 ds := by
  rcases phase1_flag_origin ds s wi hf with h0 | ⟨di, hdi, hmem⟩
  · rw [(flagsClear_wire hclear wi).2.2] at h0
    cases h0
  · rcases phase1_dirty_origin ds s di hdi with h0 | ⟨wd, hwd, hdrv⟩
    · rw [flagsClear_driver hclear di] at h0
      cases h0
    · have hdrivers : (multi_drive_phase2 (multi_drive_phase1 s ds)
          ds).1.drivers = (multi_drive_phase1 s ds).drivers := by
        rw [multi_drive_phase2_eq_aux]
        exact phase2Aux_drivers ds _ []
      apply mem_phase3Visits ds _ ⟨wd, hwd, hdrv⟩
      · rw [driverAt_congr hdrivers di]
        exact hdi
      · rw [driverAt_congr hdrivers di, phase1_driver_wires]
        exact hmem

theorem multi_drive_rlog (s : World) (ds : List QemuWireDrive)
    (hclear : flagsClear s) (wi : Nat) :
    (qemu_wire_multi_drive s ds).2.1.count wi =
      if (wireAt (multi_drive_phase1 s ds) wi).driver_changed = true
      then 1 else 0 := by
  have heq : (qemu_wire_multi_drive s ds).2.1 =
      (multi_drive_phase2 (multi_drive_phase1 s ds) ds).2 := rfl
  rw [heq, multi_drive_phase2_eq_aux, phase2Aux_count]
  simp only [List.count_nil, Nat.zero_add]
  by_cases hf : (wireAt (multi_drive_phase1 s ds) wi).driver_changed = true
  · rw [if_pos hf, if_pos ⟨hf, marked_mem_visits2 s ds hclear wi hf⟩]
  · rw [if_neg hf, if_neg (fun hc => hf hc.1)]

theorem changed2_implies_marked (s : World) (ds : List QemuWireDrive)
    (hclear : flagsClear s) (wi : Nat)
    (hch : (wireAt (multi_drive_phase2 (multi_drive_phase1 s ds) ds).1
      wi).changed = true) :
    (wireAt (multi_drive_phase1 s ds) wi).driver_changed = true := by
  by_contra hf
  rw [multi_drive_phase2_eq_aux] at hch
  rw [phase2Aux_untouched ds _ [] wi (fun hc => hf hc.1)] at hch
  rw [(phase1_wire_preserved ds s wi).1, (flagsClear_wire hclear wi).1]
    at hch
  cases hch

theorem multi_drive_nlog (s : World) (ds : List QemuWireDrive)
    (hclear : flagsClear s) (wi : Nat) :
    (qemu_wire_multi_drive s ds).2.2.count wi =
      if (wireAt (multi_drive_phase2 (multi_drive_phase1 s ds) ds).1
          wi).changed = true
      then 1 else 0 := by
  have heq : (qemu_wire_multi_drive s ds).2.2 =
      (multi_drive_phase3
        (multi_drive_phase2 (multi_drive_phase1 s ds) ds).1 ds []).2 := rfl
  rw [heq, phase3_count]
  simp only [List.count_nil, Nat.zero_add]
  by_cases hch : (wireAt (multi_drive_phase2 (multi_drive_phase1 s ds)
      ds).1 wi).changed = true
  · rw [if_pos hch, if_pos ⟨hch, marked_mem_visits3 s ds hclear wi
      (changed2_implies_marked s ds hclear wi hch)⟩]
  · rw [if_neg hch, if_neg (fun hc => hch hc.1)]

theorem multi_drive_flags_clear (s : World) (ds : List QemuWireDrive)
    (hclear : flagsClear s) :
    flagsClear (qemu_wire_multi_drive s ds).1 := by
  have heq : (qemu_wire_multi_drive s ds).1 =
      (multi_drive_phase3
        (multi_drive_phase2 (multi_drive_phase1 s ds) ds).1 ds []).1 := rfl
  rw [heq]
  have hdrivers2 : (multi_drive_phase2 (multi_drive_phase1 s ds)
      ds).1.drivers = (multi_drive_phase1 s ds).drivers := by
    rw [multi_drive_phase2_eq_aux]
    exact phase2Aux_drivers ds _ []
  have hdc2 : ∀ wi, (wireAt (multi_drive_phase2 (multi_drive_phase1 s ds)
      ds).1 wi).driver_changed = false := by
    intro wi
    rw [multi_drive_phase2_eq_aux, phase2Aux_flag]
    by_cases hf : (wireAt (multi_drive_phase1 s ds) wi).driver_changed
      = true
    · rw [hf]
      simp [marked_mem_visits2 s ds hclear wi hf]
    · simp only [Bool.not_eq_true] at hf
      rw [hf]
      simp
  have hic2 : ∀ wi, (wireAt (multi_drive_phase2 (multi_drive_phase1 s ds)
      ds).1 wi).in_callback = false := by
    intro wi
    rw [multi_drive_phase2_eq_aux]
    by_cases hc : (wireAt (multi_drive_phase1 s ds) wi).driver_changed
        = true ∧ wi ∈ phase2Visits (multi_drive_phase1 s ds) ds
    · rw [phase2Aux_touched ds _ [] wi hc.1 hc.2]
      show (wireAt (multi_drive_phase1 s ds) wi).in_callback = false
      rw [(phase1_wire_preserved ds s wi).2.1]
      exact (flagsClear_wire hclear wi).2.1
    · rw [phase2Aux_untouched ds _ [] wi hc,
        (phase1_wire_preserved ds s wi).2.1]
      exact (flagsClear_wire hclear wi).2.1
  apply flagsClear_of_pointwise
  · intro wi
    refine ⟨?_, ?_, ?_⟩
    · rw [phase3_changed]
      by_cases hch : (wireAt (multi_drive_phase2
          (multi_drive_phase1 s ds) ds).1 wi).changed = true
      · rw [hch]
        simp [marked_mem_visits3 s ds hclear wi
          (changed2_implies_marked s ds hclear wi hch)]
      · simp only [Bool.not_eq_true] at hch
        rw [hch]
        simp
    · by_cases hc : (wireAt (multi_drive_phase2 (multi_drive_phase1 s ds)
          ds).1 wi).changed = true ∧ wi ∈ phase3Visits
          (multi_drive_phase2 (multi_drive_phase1 s ds) ds).1 ds
      · rw [phase3_touched ds _ [] wi hc.1 hc.2]
        rfl
      · rw [phase3_untouched ds _ [] wi hc]
        exact hic2 wi
    · by_cases hc : (wireAt (multi_drive_phase2 (multi_drive_phase1 s ds)
          ds).1 wi).changed = true ∧ wi ∈ phase3Visits
          (multi_drive_phase2 (multi_drive_phase1 s ds) ds).1 ds
      · rw [phase3_touched ds _ [] wi hc.1 hc.2]
        show (wireAt (multi_drive_phase2 (multi_drive_phase1 s ds) ds).1
          wi).driver_changed = false
        exact hdc2 wi
      · rw [phase3_untouched ds _ [] wi hc]
        exact hdc2 wi
  · intro di
    rw [phase3_driver]
    by_cases hc : (driverAt (multi_drive_phase2 (multi_drive_phase1 s ds)
        ds).1 di).changed = true ∧ (∃ wd ∈ ds, wd.driver = some di)
    · rw [if_pos hc]
      rfl
    · rw [if_neg hc]
      by_contra hdd
      simp only [Bool.not_eq_false] at hdd
      have hd1 : (driverAt (multi_drive_phase1 s ds) di).changed
          = true := by
        rw [← driverAt_congr hdrivers2 di]
        exact hdd
      rcases phase1_dirty_origin ds s di hd1 with h0 | hlisted
      · rw [flagsClear_driver hclear di] at h0
        cases h0
      · exact hc ⟨hdd, hlisted⟩

/-- C5 counterexample: `attach(W, NULL)` with a non-NULL wire `W` does
NOT succeed as a no-op: `qemu_wire_attach` only checks the wire for
NULL and then executes `VECTOR_APPEND(driver->wires, wire)`, which
dereferences the NULL driver (modelled as `none`). -/
theorem attach_null_driver_faults :
    qemu_wire_attach ⟨[defaultWire], []⟩ (some 0) none = none ∧
    qemu_wire_detach ⟨[defaultWire], []⟩ (some 0) none = none := ⟨rfl, rfl⟩

/-- C5 (amended): every public operation accepts a NULL wire and
succeeds as a no-op or returns `HI_Z`/`false`/`0`, and the drive
operations accept a NULL driver as a no-op; but `attach(W, NULL)` and
`detach(W, NULL)` with a non-NULL wire `W` dereference the NULL driver
(modelled as `none`). -/
theorem null_sentinel_behaviour (s : World) (dr : Option Nat)
    (handler opq : Nat) (v : Int) (st : Nat) (b : Bool) (av : Int)
    (wi : Nat) :
    qemu_wire_attach s none dr = some s ∧
    qemu_wire_detach s none dr = some (s, []) ∧
    qemu_wire_listen s none handler opq = s ∧
    qemu_wire_unlisten s none handler opq = s ∧
    qemu_set_wire_intrinsic s none v = s ∧
    qemu_wire_sense none = (false, 0) ∧
    qemu_wire_sense_a none = (0, 0) ∧
    qemu_wire_sense_strength none = 0 ∧
    qemu_wire_sense_conflicted none = false ∧
    qemu_wire_drive s none st b = (s, [], []) ∧
    qemu_wire_drive_a s none st av = (s, [], []) ∧
    qemu_wire_drive_z s none = (s, [], []) ∧
    qemu_wire_attach s (some wi) none = none ∧
    qemu_wire_detach s (some wi) none = none :=
  ⟨rfl, rfl, rfl, rfl, rfl, rfl, rfl, rfl, rfl, rfl, rfl, rfl, rfl, rfl⟩

theorem drive_stored_strength (s : World) (di st : Nat) (v : Int)
    (m : Mode) (hdi : di < s.drivers.length) :
    (driverAt (qemu_wire_multi_drive s
      [mkWireDrive (some di) v st m]).1 di).strength = st % 8 := by
  have heq : (qemu_wire_multi_drive s [mkWireDrive (some di) v st m]).1 =
      (multi_drive_phase3
        (multi_drive_phase2
          (multi_drive_phase1 s [mkWireDrive (some di) v st m])
          [mkWireDrive (some di) v st m]).1
        [mkWireDrive (some di) v st m] []).1 := rfl
  rw [heq, phase3_driver]
  have hdrivers2 : (multi_drive_phase2
      (multi_drive_phase1 s [mkWireDrive (some di) v st m])
      [mkWireDrive (some di) v st m]).1.drivers =
      (multi_drive_phase1 s [mkWireDrive (some di) v st m]).drivers := by
    rw [multi_drive_phase2_eq_aux]
    exact phase2Aux_drivers _ _ []
  have hstr : (driverAt (multi_drive_phase1 s
      [mkWireDrive (some di) v st m]) di).strength = st % 8 := by
    show (driverAt (phase1Step s (mkWireDrive (some di) v st m))
      di).strength = st % 8
    unfold phase1Step mkWireDrive
    dsimp only
    split
    · next hskip =>
      rw [hskip.1]
      omega
    · rw [driverAt_markWires, driverAt_setDriver, if_pos ⟨rfl, hdi⟩]
      show st % 8 % 8 = st % 8
      omega
  have hcs : ∀ d : Driver, (clearedDriver d).strength = d.strength :=
    fun d => rfl
  split
  · rw [hcs, driverAt_congr hdrivers2 di]
    exact hstr
  · rw [driverAt_congr hdrivers2 di]
    exact hstr

/-- C10: strength lives in a 3-bit field in both the drive descriptor
(`struct qemu_wire_drive`) and the driver state, so the strength stored
by a drive operation is the requested strength modulo 8; in particular
requesting strength 8 silently stores 0 (`HI_Z`). -/
theorem drive_strength_is_mod8 :
    (∀ (dr : Option Nat) (v : Int) (st : Nat) (m : Mode),
      (mkWireDrive dr v st m).strength = st % 8) ∧
    (∀ (s : World) (di st : Nat) (b : Bool), di < s.drivers.length →
      (driverAt (qemu_wire_drive s (some di) st b).1 di).strength
        = st % 8) := by
  constructor
  · intro dr v st m
    rfl
  · intro s di st b hdi
    exact drive_stored_strength s di st (if b then 1 else 0) Mode.D hdi

theorem drive_strength_is_mod8_witness :
    (mkWireDrive (some 0) 1 8 Mode.D).strength = 0 ∧
    (driverAt (qemu_wire_drive ⟨[], [defaultDriver]⟩ (some 0) 8
      true).1 0).strength = 0 := by
  constructor
  · exact (drive_strength_is_mod8.1 (some 0) 1 8 Mode.D).trans (by decide)
  · exact (drive_strength_is_mod8.2 ⟨[], [defaultDriver]⟩ 0 8 true
      (by decide)).trans (by decide)

/-- C3 (amended): starting from a settled state (all transient flags
clear), `qemu_wire_multi_drive` resolves exactly once every wire marked
by a changed driver and no other wire; the wires marked are exactly the
in-range wires of the drivers the batch changed; and a wire's listeners
are notified exactly once when its resolution set `changed` and zero
times otherwise (in particular at most once, and possibly zero times
even for a wire of a changed driver). -/
theorem multi_drive_once (s : World) (ds : List QemuWireDrive)
    (hclear : flagsClear s) :
    (∀ wi, (qemu_wire_multi_drive s ds).2.1.count wi =
      (if (wireAt (multi_drive_phase1 s ds) wi).driver_changed = true
       then 1 else 0)) ∧
    (∀ wi, (qemu_wire_multi_drive s ds).2.2.count wi =
      (if (wireAt (multi_drive_phase2 (multi_drive_phase1 s ds) ds).1
          wi).changed = true then 1 else 0)) ∧
    (∀ wi, (wireAt (multi_drive_phase2 (multi_drive_phase1 s ds) ds).1
        wi).changed = true →
      (wireAt (multi_drive_phase1 s ds) wi).driver_changed = true) ∧
    (∀ wi di, (driverAt (multi_drive_phase1 s ds) di).changed = true →
      wi ∈ (driverAt s di).wires → wi < s.wires.length →
      (wireAt (multi_drive_phase1 s ds) wi).driver_changed = true) ∧
    (∀ wi, (wireAt (multi_drive_phase1 s ds) wi).driver_changed = true →
      ∃ di, (driverAt (multi_drive_phase1 s ds) di).changed = true ∧
        wi ∈ (driverAt s di).wires) := by
  refine ⟨multi_drive_rlog s ds hclear, multi_drive_nlog s ds hclear,
    changed2_implies_marked s ds hclear, ?_, ?_⟩
  · intro wi di hdi hmem hlen
    exact phase1_marked ds s di wi hdi (flagsClear_driver hclear di)
      hmem hlen
  · intro wi hf
    rcases phase1_flag_origin ds s wi hf with h0 | h1
    · rw [(flagsClear_wire hclear wi).2.2] at h0
      cases h0
    · exact h1

/-- C3 counterexample: a wire attached to a driver whose state the
batch changes need NOT be notified: here driver 0 steps from `HI_Z` to
`(PULL, 1)` on a wire whose other driver holds `(SUPPLY, 1)`, so the
wire is marked and resolved once, but its resolved state is unchanged
and its listeners are notified zero times, not exactly once. -/
theorem multi_drive_not_notified_once :
    flagsClear ⟨[⟨3300000, [0, 1], [], 1, 7, Mode.D, false, false,
        false, false⟩],
      [⟨0, 0, Mode.D, [0], false⟩, ⟨1, 7, Mode.D, [0], false⟩]⟩ ∧
    (wireAt (multi_drive_phase1
      ⟨[⟨3300000, [0, 1], [], 1, 7, Mode.D, false, false, false,
        false⟩],
       [⟨0, 0, Mode.D, [0], false⟩, ⟨1, 7, Mode.D, [0], false⟩]⟩
      [mkWireDrive (some 0) 1 5 Mode.D]) 0).driver_changed = true ∧
    (qemu_wire_multi_drive
      ⟨[⟨3300000, [0, 1], [], 1, 7, Mode.D, false, false, false,
        false⟩],
       [⟨0, 0, Mode.D, [0], false⟩, ⟨1, 7, Mode.D, [0], false⟩]⟩
      [mkWireDrive (some 0) 1 5 Mode.D]).2.1.count 0 = 1 ∧
    (qemu_wire_multi_drive
      ⟨[⟨3300000, [0, 1], [], 1, 7, Mode.D, false, false, false,
        false⟩],
       [⟨0, 0, Mode.D, [0], false⟩, ⟨1, 7, Mode.D, [0], false⟩]⟩
      [mkWireDrive (some 0) 1 5 Mode.D]).2.2.count 0 = 0 := by
  decide

theorem multi_drive_once_witness :
    (qemu_wire_multi_drive
      ⟨[⟨3300000, [0, 1], [], 1, 7, Mode.D, false, false, false,
        false⟩],
       [⟨0, 0, Mode.D, [0], false⟩, ⟨1, 7, Mode.D, [0], false⟩]⟩
      [mkWireDrive (some 0) 1 5 Mode.D]).2.1.count 0 =
      (if (wireAt (multi_drive_phase1
        ⟨[⟨3300000, [0, 1], [], 1, 7, Mode.D, false, false, false,
          false⟩],
         [⟨0, 0, Mode.D, [0], false⟩, ⟨1, 7, Mode.D, [0], false⟩]⟩
        [mkWireDrive (some 0) 1 5 Mode.D]) 0).driver_changed = true
       then 1 else 0) :=
  (multi_drive_once
    ⟨[⟨3300000, [0, 1], [], 1, 7, Mode.D, false, false, false, false⟩],
     [⟨0, 0, Mode.D, [0], false⟩, ⟨1, 7, Mode.D, [0], false⟩]⟩
    [mkWireDrive (some 0) 1 5 Mode.D] (by decide)).1 0

/-- C8: a drive operation that changes a wire's resolved state only in
strength — both old and new strength non-`HI_Z`, mode, value and
conflict unchanged — never invokes the wire's leaf listeners: the
change-detection predicate is false, so `changed` is never set and
phase 3 skips the wire. -/
theorem strength_only_change_no_notify (s : World)
    (ds : List QemuWireDrive) (hclear : flagsClear s) (wi : Nat)
    (r : ResolveResult)
    (hr : r = wireResolve (attachVals (multi_drive_phase1 s ds)
      (wireAt (multi_drive_phase1 s ds) wi)))
    (hm : r.mode = (wireAt s wi).mode)
    (hv : r.value = (wireAt s wi).value)
    (hcf : r.conflict = (wireAt s wi).is_conflict)
    (hs1 : r.strength ≠ 0) (hs0 : (wireAt s wi).strength ≠ 0) :
    (qemu_wire_multi_drive s ds).2.2.count wi = 0 := by
  rw [multi_drive_nlog s ds hclear wi]
  have hp := phase1_wire_preserved ds s wi
  have hch2 : (wireAt (multi_drive_phase2 (multi_drive_phase1 s ds)
      ds).1 wi).changed = false := by
    by_cases hmk : (wireAt (multi_drive_phase1 s ds) wi).driver_changed
        = true
    · by_cases hvis : wi ∈ phase2Visits (multi_drive_phase1 s ds) ds
      · rw [multi_drive_phase2_eq_aux,
          phase2Aux_touched ds _ [] wi hmk hvis]
        show (applyResolve (wireAt (multi_drive_phase1 s ds) wi)
          (wireResolve (attachVals (multi_drive_phase1 s ds)
            (wireAt (multi_drive_phase1 s ds) wi)))).changed = false
        rw [applyResolve_changed, ← hr, hp.1,
          (flagsClear_wire hclear wi).1]
        have hdet : changeDetect (wireAt (multi_drive_phase1 s ds) wi) r
            = false := by
          unfold changeDetect
          rw [hp.2.2.2.1, hp.2.2.2.2.1, hp.2.2.2.2.2.1,
            hp.2.2.2.2.2.2.1]
          simp [hm, hv, hcf, hs1, hs0]
        rw [hdet]
        rfl
      · rw [multi_drive_phase2_eq_aux,
          phase2Aux_untouched ds _ [] wi (fun hc => hvis hc.2), hp.1]
        exact (flagsClear_wire hclear wi).1
    · rw [multi_drive_phase2_eq_aux,
        phase2Aux_untouched ds _ [] wi (fun hc => hmk hc.1), hp.1]
      exact (flagsClear_wire hclear wi).1
  rw [hch2]
  simp

theorem strength_only_change_no_notify_witness :
    (qemu_wire_multi_drive
      ⟨[⟨3300000, [0], [], 1, 5, Mode.D, false, false, false, false⟩],
       [⟨1, 5, Mode.D, [0], false⟩]⟩
      [mkWireDrive (some 0) 1 6 Mode.D]).2.2.count 0 = 0 :=
  strength_only_change_no_notify
    ⟨[⟨3300000, [0], [], 1, 5, Mode.D, false, false, false, false⟩],
     [⟨1, 5, Mode.D, [0], false⟩]⟩
    [mkWireDrive (some 0) 1 6 Mode.D] (by decide) 0
    ⟨6, Mode.D, 1, false⟩ (by decide) (by decide) (by decide)
    (by decide) (by decide) (by decide)

theorem flagsClear_setWire (s : World) (wi : Nat) (w : Wire)
    (hclear : flagsClear s)
    (hw : w.changed = false ∧ w.in_callback = false ∧
      w.driver_changed = false) :
    flagsClear (setWire s wi w) := by
  apply flagsClear_of_pointwise
  · intro j
    rw [wireAt_setWire]
    split
    · exact hw
    · exact flagsClear_wire hclear j
  · intro di
    rw [driverAt_setWire]
    exact flagsClear_driver hclear di

theorem flagsClear_setDriver (s : World) (di : Nat) (d : Driver)
    (hclear : flagsClear s) (hd : d.changed = false) :
    flagsClear (setDriver s di d) := by
  apply flagsClear_of_pointwise
  · intro j
    rw [wireAt_setDriver]
    exact flagsClear_wire hclear j
  · intro j
    rw [driverAt_setDriver]
    split
    · exact hd
    · exact flagsClear_driver hclear j

theorem update_notify_flags_clear (s : World) (wi : Nat)
    (hclear : flagsClear s) :
    flagsClear (wire_notify_if_changed (wire_update s wi) wi []).1 := by
  by_cases hlen : wi < s.wires.length
  · have hu : wireAt (wire_update s wi) wi =
        applyResolve (wireAt s wi)
          (wireResolve (attachVals s (wireAt s wi))) :=
      wireAt_wire_update_self s wi hlen
    have hic : (wireAt (wire_update s wi) wi).in_callback = false := by
      rw [hu]
      show (wireAt s wi).in_callback = false
      exact (flagsClear_wire hclear wi).2.1
    have hdc : (wireAt (wire_update s wi) wi).driver_changed = false := by
      rw [hu]
      show (wireAt s wi).driver_changed = false
      exact (flagsClear_wire hclear wi).2.2
    by_cases hch : (wireAt (wire_update s wi) wi).changed = true
    · rw [notify_changed_true _ wi [] hch]
      apply flagsClear_of_pointwise
      · intro j
        rw [wireAt_setWire]
        split
        · exact ⟨rfl, rfl, hdc⟩
        · next hc =>
          by_cases hij : wi = j
          · exfalso
            apply hc
            refine ⟨hij, ?_⟩
            rw [wires_length_wire_update]
            exact hlen
          · rw [wireAt_wire_update_ne s wi j hij]
            exact flagsClear_wire hclear j
      · intro di
        rw [driverAt_setWire]
        show (driverAt s di).changed = false
        exact flagsClear_driver hclear di
    · rw [notify_changed_false _ wi []
        (by simp only [Bool.not_eq_true] at hch; exact hch)]
      apply flagsClear_of_pointwise
      · intro j
        by_cases hij : wi = j
        · subst hij
          refine ⟨?_, hic, hdc⟩
          simp only [Bool.not_eq_true] at hch
          exact hch
        · rw [wireAt_wire_update_ne s wi j hij]
          exact flagsClear_wire hclear j
      · intro di
        show (driverAt s di).changed = false
        exact flagsClear_driver hclear di
  · have h1 : wire_update s wi = s := by
      unfold wire_update
      exact setWire_out_of_range s wi _ (by omega)
    rw [h1, notify_changed_false s wi [] (flagsClear_wire hclear wi).1]
    exact hclear

/-- C6: from a settled state (all transient flags zero), every public
operation of the model returns with `changed`, `in_callback` and
`driver_changed` false on every wire and `changed` (the driver-side
dirty mark) false on every driver. -/
theorem settled_flags_clear (s : World) (hclear : flagsClear s)
    (ds : List QemuWireDrive) (dr : Option Nat) (st : Nat) (b : Bool)
    (av : Int) (wire driver : Option Nat) (handler opq : Nat)
    (v : Int) :
    flagsClear (qemu_wire_multi_drive s ds).1 ∧
    flagsClear (qemu_wire_drive s dr st b).1 ∧
    flagsClear (qemu_wire_drive_a s dr st av).1 ∧
    flagsClear (qemu_wire_drive_z s dr).1 ∧
    (∀ s', qemu_wire_attach s wire driver = some s' → flagsClear s') ∧
    (∀ p, qemu_wire_detach s wire driver = some p → flagsClear p.1) ∧
    flagsClear (qemu_wire_listen s wire handler opq) ∧
    flagsClear (qemu_wire_unlisten s wire handler opq) ∧
    flagsClear (qemu_set_wire_intrinsic s wire v) := by
  refine ⟨multi_drive_flags_clear s ds hclear,
    multi_drive_flags_clear s _ hclear,
    multi_drive_flags_clear s _ hclear,
    multi_drive_flags_clear s _ hclear, ?_, ?_, ?_, ?_, ?_⟩
  · intro s' heq
    rcases wire with _ | wi
    · cases heq
      exact hclear
    · rcases driver with _ | di
      · cases heq
      · unfold qemu_wire_attach at heq
        rw [Option.some_inj] at heq
        rw [← heq]
        apply flagsClear_setDriver
        · apply flagsClear_setWire s wi _ hclear
          exact flagsClear_wire hclear wi
        · show (driverAt s di).changed = false
          exact flagsClear_driver hclear di
  · intro p heq
    rcases wire with _ | wi
    · cases heq
      exact hclear
    · rcases driver with _ | di
      · cases heq
      · unfold qemu_wire_detach at heq
        rw [Option.some_inj] at heq
        rw [← heq]
        apply update_notify_flags_clear
        apply flagsClear_setWire _ wi _ ?_ ?_
        · apply flagsClear_setDriver s di _ hclear
          show (driverAt s di).changed = false
          exact flagsClear_driver hclear di
        · exact flagsClear_wire (by
            apply flagsClear_setDriver s di _ hclear
            show (driverAt s di).changed = false
            exact flagsClear_driver hclear di) wi
  · rcases wire with _ | wi
    · exact hclear
    · apply flagsClear_setWire s wi _ hclear
      exact flagsClear_wire hclear wi
  · rcases wire with _ | wi
    · exact hclear
    · apply flagsClear_setWire s wi _ hclear
      exact flagsClear_wire hclear wi
  · rcases wire with _ | wi
    · exact hclear
    · apply flagsClear_setWire s wi _ hclear
      exact flagsClear_wire hclear wi

theorem settled_flags_clear_witness :
    flagsClear (qemu_wire_multi_drive
      ⟨[defaultWire], [⟨0, 0, Mode.D, [0], false⟩]⟩
      [mkWireDrive (some 0) 1 5 Mode.D]).1 ∧
    flagsClear (qemu_wire_drive
      ⟨[defaultWire], [⟨0, 0, Mode.D, [0], false⟩]⟩ (some 0) 5 true).1 :=
  ⟨(settled_flags_clear ⟨[defaultWire], [⟨0, 0, Mode.D, [0], false⟩]⟩
      (by decide) [mkWireDrive (some 0) 1 5 Mode.D] (some 0) 5 true 0
      (some 0) (some 0) 0 0 0).1,
   (settled_flags_clear ⟨[defaultWire], [⟨0, 0, Mode.D, [0], false⟩]⟩
      (by decide) [mkWireDrive (some 0) 1 5 Mode.D] (some 0) 5 true 0
      (some 0) (some 0) 0 0 0).2.1⟩

/-- C9: conflict-hysteresis of the composite listener: when the
recomputed `in_conflict` and the snapshot's `in_conflict` are both
true, `multi_handler` returns at once — the user handler is not
invoked and the snapshot is not updated, whatever the member bits or
the weakest strength now are. -/
theorem multi_listener_conflict_hysteresis (s : World)
    (ml : MultiListener) (hrec : recomputeConflict s ml = true)
    (hprev : ml.in_conflict = true) :
    multi_handler s ml = (ml, false) := by
  unfold multi_handler
  rw [hrec, hprev]
  rfl

theorem multi_listener_conflict_hysteresis_witness :
    multi_handler
      ⟨[⟨3300000, [], [], 0, 5, Mode.D, true, false, false, false⟩], []⟩
      ⟨0, 0, 1, 0, 0, true, [some 0]⟩ =
      (⟨0, 0, 1, 0, 0, true, [some 0]⟩, false) :=
  multi_listener_conflict_hysteresis
    ⟨[⟨3300000, [], [], 0, 5, Mode.D, true, false, false, false⟩], []⟩
    ⟨0, 0, 1, 0, 0, true, [some 0]⟩ (by decide) (by decide)

end WireCore
